import Mathlib

set_option maxRecDepth 4000

/-!
Verification of the markup-fragment parsing core (`fragment_parser.py`):
a character-level lexical scanner (`parse_to_stream`), a stack-based tree
assembler (`parse_to_subtrees`), and a serializer (`Element.write_to`).
Strings are modelled as lists of characters (Python strings are sequences
of code points).  Fallible code is modelled with `Except`: an `assert`
failure or a `raise RuntimeError` in the Python source becomes an error
value of type `PErr` (for the parser) or a scanner state (for the
scanner's `finish`, which raises "Cannot finish <state>").
-/

abbrev Str := List Char

/-- Tokens produced by the scanner, mirroring the event tuples of
`parse_to_stream`: `('CHARACTERS', text)`, `('START_TAG', None)`, etc. -/
inductive Token where
  | CHARACTERS (text : Str)
  | START_TAG
  | TAG_IS_CLOSING
  | TAG_IS_SELF_CLOSING
  | NAME (text : Str)
  | ATTRIBUTE_VALUE (text : Str)
  | END_TAG
deriving DecidableEq, Repr

/-- Scanner states, as in the `states` comment of `parse_to_stream`. -/
inductive SState where
  | TEXT
  | IN_TAG_START
  | IN_NAME
  | IN_VALUE_START
  | IN_VALUE
  | IN_DOUBLE_QUOTED_VALUE
  | IN_SINGLE_QUOTED_VALUE
  | IN_TAG
deriving DecidableEq, Repr

/-- Membership test for `WHITESPACE = [' ', '\t', '\n']`. -/
def isWS (c : Char) : Bool := c == ' ' || c == '\t' || c == '\n'

/-- The scanner's `finish()` helper: flush the accumulating buffer as one
token, or raise (`Cannot finish <state>`) in states that accumulate
nothing. -/
def finish : SState → Str → Except SState Token
  | .TEXT, b => .ok (.CHARACTERS b)
  | .IN_NAME, b => .ok (.NAME b)
  | .IN_VALUE, b => .ok (.ATTRIBUTE_VALUE b)
  | .IN_VALUE_START, b => .ok (.ATTRIBUTE_VALUE b)
  | s, _ => .error s

/-- One iteration of the scanner's character loop: from a (state, buffer)
pair and the character under the cursor, produce the next (state, buffer)
and the tokens yielded during that iteration.  Each branch transcribes the
corresponding branch of the Python `while` loop; `finish` calls inside the
loop occur only in states where they succeed, so their result is inlined. -/
def scanStep : SState × Str → Char → (SState × Str) × List Token
  | (.TEXT, buf), c =>
    if c == '<' then ((.IN_TAG_START, []), [.CHARACTERS buf, .START_TAG])
    else ((.TEXT, buf ++ [c]), [])
  | (.IN_TAG_START, buf), c =>
    if c == '/' then ((.IN_TAG_START, buf), [.TAG_IS_CLOSING])
    else if isWS c then ((.IN_TAG_START, buf), [])
    else ((.IN_NAME, buf ++ [c]), [])
  | (.IN_NAME, buf), c =>
    if c == '>' then ((.TEXT, []), [.NAME buf, .END_TAG])
    else if c == '/' then ((.IN_TAG, []), [.NAME buf, .TAG_IS_SELF_CLOSING])
    else if c == '=' then ((.IN_VALUE_START, []), [.NAME buf])
    else if isWS c then ((.IN_TAG, []), [.NAME buf])
    else ((.IN_NAME, buf ++ [c]), [])
  | (.IN_TAG, buf), c =>
    if c == '>' then ((.TEXT, buf), [.END_TAG])
    else if c == '/' then ((.IN_TAG, buf), [.TAG_IS_SELF_CLOSING])
    else if isWS c then ((.IN_TAG, buf), [])
    else if c == '=' then ((.IN_VALUE_START, buf), [])
    else ((.IN_NAME, buf ++ [c]), [])
  | (.IN_VALUE_START, buf), c =>
    if c == '"' then ((.IN_DOUBLE_QUOTED_VALUE, buf ++ [c]), [])
    else if c == '\'' then ((.IN_SINGLE_QUOTED_VALUE, buf ++ [c]), [])
    else if isWS c then ((.IN_VALUE_START, buf), [])
    else if c == '/' then ((.IN_TAG, []), [.ATTRIBUTE_VALUE buf, .TAG_IS_SELF_CLOSING])
    else if c == '>' then ((.TEXT, []), [.ATTRIBUTE_VALUE buf, .END_TAG])
    else ((.IN_VALUE, buf ++ [c]), [])
  | (.IN_VALUE, buf), c =>
    if c == '"' then ((.IN_DOUBLE_QUOTED_VALUE, buf ++ [c]), [])
    else if c == '\'' then ((.IN_SINGLE_QUOTED_VALUE, buf ++ [c]), [])
    else if isWS c then ((.IN_TAG, []), [.ATTRIBUTE_VALUE buf])
    else if c == '/' then ((.IN_TAG, []), [.ATTRIBUTE_VALUE buf, .TAG_IS_SELF_CLOSING])
    else if c == '>' then ((.TEXT, []), [.ATTRIBUTE_VALUE buf, .END_TAG])
    else ((.IN_VALUE, buf ++ [c]), [])
  | (.IN_DOUBLE_QUOTED_VALUE, buf), c =>
    if c == '"' then ((.IN_VALUE, buf ++ [c]), [])
    else ((.IN_DOUBLE_QUOTED_VALUE, buf ++ [c]), [])
  | (.IN_SINGLE_QUOTED_VALUE, buf), c =>
    if c == '\'' then ((.IN_VALUE, buf ++ [c]), [])
    else ((.IN_SINGLE_QUOTED_VALUE, buf ++ [c]), [])

/-- Run the scanner loop over a list of characters, collecting all yielded
tokens in order. -/
def scanChars : SState × Str → List Char → (SState × Str) × List Token
  | st, [] => (st, [])
  | st, c :: cs =>
    let r1 := scanStep st c
    let r2 := scanChars r1.1 cs
    (r2.1, r1.2 ++ r2.2)

/-- The function `parse_to_stream`: the full token sequence for an input, together with
`none` when the final `finish()` succeeds (its token is appended), or
`some s` when the scanner ends in state `s` where `finish` raises
`RuntimeError("Cannot finish ...")`. -/
def parse_to_stream (data : Str) : List Token × Option SState :=
  let r := scanChars (.TEXT, []) data
  match finish r.1.1 r.1.2 with
  | .ok t => (r.2 ++ [t], none)
  | .error s => (r.2, some s)

/-- Attribute: name and optional value (values include their own quotes). -/
abbrev Attr := Str × Option Str

/-- A node of the parse tree: an element (with the five `Element` data
fields of the Python class) or a text run. -/
inductive Node where
  | text (s : Str)
  | elem (tag_name : Option Str) (is_self_closing is_closed is_closing : Bool)
      (attributes : List Attr) (children : List Node)

/-- The assembler's working view of an `Element` (the mutable Python
object before it is emitted into a parent's children or the forest). -/
structure Element where
  tag_name : Option Str
  is_self_closing : Bool
  is_closed : Bool
  is_closing : Bool
  attributes : List Attr
  children : List Node

/-- A freshly constructed `Element()`. -/
def Element.new : Element := ⟨none, false, false, false, [], []⟩

def Element.toNode (e : Element) : Node :=
  .elem e.tag_name e.is_self_closing e.is_closed e.is_closing e.attributes e.children

/-- Errors of the assembler (each Python `assert`/`raise` site), plus the
scanner's `finish` failure which propagates through the token loop. -/
inductive PErr where
  | cannotFinish (s : SState)
  | assertTagPending
  | assertNoTag
  | assertNoAttribute
  | unexpectedClosing (n : Option Str)
  | finalTagPending
deriving DecidableEq, Repr

/-- Assembler state: open-element stack (head = innermost), current-tag
scratch slot, current-attribute scratch slot, and the output forest. -/
structure AState where
  stack : List Element
  current_tag : Option Element
  current_attribute : Option Attr
  output : List Node

/-- Append a finished node to the innermost open element's children, or to
the output forest when the stack is empty. -/
def attachNode (stack : List Element) (output : List Node) (n : Node) :
    List Element × List Node :=
  match stack with
  | [] => ([], output ++ [n])
  | top :: rest => ({top with children := top.children ++ [n]} :: rest, output)

/-- Flush the pending attribute (if any) into the element, as done at the
start of the END_TAG handler. -/
def flushAttribute (e : Element) (ca : Option Attr) : Element :=
  match ca with
  | some a => {e with attributes := e.attributes ++ [a]}
  | none => e

/-- Process one token, mirroring the event dispatch of
`parse_to_subtrees`. -/
def handleToken (st : AState) : Token → Except PErr AState
  | .CHARACTERS t =>
    if t.length > 0 then
      match st.stack with
      | [] => .ok {st with output := st.output ++ [.text t]}
      | top :: rest =>
        .ok {st with stack := {top with children := top.children ++ [.text t]} :: rest}
    else .ok st
  | .START_TAG =>
    match st.current_tag with
    | some _ => .error .assertTagPending
    | none => .ok {st with current_tag := some Element.new}
  | .TAG_IS_CLOSING =>
    match st.current_tag with
    | none => .error .assertNoTag
    | some e => .ok {st with current_tag := some {e with is_closing := true}}
  | .TAG_IS_SELF_CLOSING =>
    match st.current_tag with
    | none => .error .assertNoTag
    | some e => .ok {st with current_tag := some {e with is_self_closing := true}}
  | .NAME t =>
    match st.current_tag with
    | none => .error .assertNoTag
    | some e =>
      match e.tag_name with
      | none => .ok {st with current_tag := some {e with tag_name := some t}}
      | some _ =>
        match st.current_attribute with
        | some a =>
          .ok {st with current_tag := some {e with attributes := e.attributes ++ [a]},
                       current_attribute := some (t, none)}
        | none => .ok {st with current_attribute := some (t, none)}
  | .ATTRIBUTE_VALUE t =>
    match st.current_attribute with
    | none => .error .assertNoAttribute
    | some a => .ok {st with current_attribute := some (a.1, some t)}
  | .END_TAG =>
    match st.current_tag with
    | none => .error .assertNoTag
    | some e0 =>
      let e := flushAttribute e0 st.current_attribute
      match st.stack, e.is_closing with
      | top :: rest, true =>
        let p := attachNode rest st.output ({top with is_closed := true}).toNode
        .ok ⟨p.1, none, none, p.2⟩
      | stack, _ =>
        if e.is_self_closing then
          let p := attachNode stack st.output e.toNode
          .ok ⟨p.1, none, none, p.2⟩
        else if e.is_closing then
          .error (.unexpectedClosing e.tag_name)
        else
          .ok ⟨e :: stack, none, none, st.output⟩

/-- Fold the assembler over a token list, stopping at the first error. -/
def runTokens : AState → List Token → Except PErr AState
  | st, [] => .ok st
  | st, t :: ts =>
    match handleToken st t with
    | .error e => .error e
    | .ok st2 => runTokens st2 ts

def initAState : AState := ⟨[], none, none, []⟩

/-- One pass of the end-of-input drain loop with the just-popped element
in hand: if elements remain beneath, attach it to the newly exposed one
and continue; otherwise it becomes output. -/
def drainAux : Element → List Element → List Node → List Node
  | e, [], out => out ++ [e.toNode]
  | e, f :: rest, out => drainAux {f with children := f.children ++ [e.toNode]} rest out

/-- The end-of-input stack drain: pop each remaining open element and
attach it to the newly exposed element beneath it, or to the output once
the stack is empty. -/
def drainStack : List Element → List Node → List Node
  | [], out => out
  | e :: rest, out => drainAux e rest out

/-- Everything `parse_to_subtrees` does before the end-of-input stack
drain: run the assembler over the (lazily produced) token stream, surface
a pending scanner `finish` failure after the tokens it did yield, then
check for a pending current tag (`Partial final tag`). -/
def parseCore (fragment : Str) : Except PErr AState :=
  let p := parse_to_stream fragment
  match runTokens initAState p.1 with
  | .error e => .error e
  | .ok st =>
    match p.2 with
    | some s => .error (.cannotFinish s)
    | none =>
      match st.current_tag with
      | some _ => .error .finalTagPending
      | none => .ok st

/-- The function `parse_to_subtrees`, the whole parse of one fragment. -/
def parse_to_subtrees (fragment : Str) : Except PErr (List Node) :=
  match parseCore fragment with
  | .error e => .error e
  | .ok st => .ok (drainStack st.stack st.output)

/-! ## Serializer (`Element.write_to`) -/

/-- One attribute as written by `write_to`: a space, the name, and
`=value` when the value is not `None` (the value verbatim). -/
def attrStr (a : Attr) : Str :=
  [' '] ++ a.1 ++ (match a.2 with | none => [] | some v => ['='] ++ v)

def attrsStr : List Attr → Str
  | [] => []
  | a :: rest => attrStr a ++ attrsStr rest

/-- The non-recursive shell of `write_to`: everything written for one
element around the already rendered children text (`rendered`).  Mirrors
the method body: indent, `<`, `/` when `is_closing`, the tag name when
truthy, the attributes, `/` when `is_self_closing`, `>`, a newline when
there are children, the children, and when `is_closed` the indent, `</`,
the tag name and `>`. -/
def elemParts (ind nl : Str) (tn : Option Str) (sc cl cg : Bool)
    (cs : List Node) (ats : List Attr) (rendered : Str) : Str :=
  ind ++ ['<'] ++ (if cg then ['/'] else []) ++ tn.getD [] ++ attrsStr ats
    ++ (if sc then ['/'] else []) ++ ['>']
    ++ (if cs.length > 0 then nl else []) ++ rendered
    ++ (if cl then ind ++ ['<', '/'] ++ tn.getD [] ++ ['>'] else [])

/-- The children loop of `write_to`: `ind` is the indent used for the
children (the parent's indent plus `add_indent`), each element child is
written recursively followed by a newline, each text child is written
between the indent and a newline. -/
def writeChildren (ind ai nl : Str) : List Node → Str
  | [] => []
  | .text t :: rest => (ind ++ t ++ nl) ++ writeChildren ind ai nl rest
  | .elem tn sc cl cg ats cs :: rest =>
      (elemParts ind nl tn sc cl cg cs ats (writeChildren (ind ++ ai) ai nl cs) ++ nl)
        ++ writeChildren ind ai nl rest

/-- The method `write_to` on an element node (top-level call with indent `ind`); a
text item of the forest is written verbatim. -/
def write_to (ind ai nl : Str) : Node → Str
  | .text t => t
  | .elem tn sc cl cg ats cs => elemParts ind nl tn sc cl cg cs ats (writeChildren (ind ++ ai) ai nl cs)

/-- Serialize each item of a forest in order, in non-pretty mode (empty
indent, add_indent and newline), text runs verbatim. -/
def serializeForest : List Node → Str
  | [] => []
  | n :: rest => write_to [] [] [] n ++ serializeForest rest

/-! ## Sanity checks of the embedding on the spec's own examples -/

example :
    parse_to_subtrees ("<p>hello<br/>world".toList) =
      .ok [.elem (some "p".toList) false false false []
        [.text "hello".toList,
         .elem (some "br".toList) true false false [] [],
         .text "world".toList]] := rfl

example :
    parse_to_subtrees ("<input disabled>".toList) =
      .ok [.elem (some "input".toList) false false false [("disabled".toList, none)] []] := rfl

example : parse_to_subtrees ("<a b=".toList) = .error .finalTagPending := rfl

example : parse_to_subtrees ("hello".toList) = .ok [.text "hello".toList] := rfl

example : parse_to_subtrees ([]) = .ok [] := rfl

/-! ## Basic composition lemmas -/

theorem scanChars_append (st : SState × Str) (l1 l2 : List Char) :
    scanChars st (l1 ++ l2) =
      ((scanChars (scanChars st l1).1 l2).1,
        (scanChars st l1).2 ++ (scanChars (scanChars st l1).1 l2).2) := by
  induction l1 generalizing st with
  | nil => simp [scanChars]
  | cons c cs ih => simp [scanChars, ih]

theorem runTokens_append (t1 t2 : List Token) (st : AState) :
    runTokens st (t1 ++ t2) =
      match runTokens st t1 with
      | .error e => .error e
      | .ok st2 => runTokens st2 t2 := by
  induction t1 generalizing st with
  | nil => simp [runTokens]
  | cons t ts ih =>
    simp only [List.cons_append, runTokens]
    cases handleToken st t with
    | error e => rfl
    | ok st2 => exact ih st2

theorem drainAux_out (S : List Element) (e : Element) (out : List Node) :
    drainAux e S out = out ++ drainAux e S [] := by
  induction S generalizing e out with
  | nil => simp [drainAux]
  | cons f rest ih =>
    rw [drainAux, drainAux, ih, ih {f with children := f.children ++ [e.toNode]} []]

theorem drainStack_out (S : List Element) (out : List Node) :
    drainStack S out = out ++ drainStack S [] := by
  cases S with
  | nil => simp [drainStack]
  | cons e rest => rw [drainStack, drainStack]; exact drainAux_out rest e out

/-! ## Structural invariants of assembled trees -/

/-- Recursive well-formedness of emitted trees: an element marked
`is_closing` is one of the self-closing leaves (see the `</a/>` quirk), a
self-closing element is a childless, unclosed leaf, and children satisfy
the same conditions recursively. -/
def nodesOK : List Node → Bool
  | [] => true
  | .text _ :: rest => nodesOK rest
  | .elem _ sc cl cg _ cs :: rest =>
    ((!cg || sc) && (!sc || (cs.isEmpty && !cl))) && (nodesOK cs && nodesOK rest)

/-- Every self-closing element anywhere in the forest is a childless leaf
with `is_closed = false` (claim C7's property). -/
def selfClosingLeaves : List Node → Bool
  | [] => true
  | .text _ :: rest => selfClosingLeaves rest
  | .elem _ sc cl _ _ cs :: rest =>
    (!sc || (cs.isEmpty && !cl)) && (selfClosingLeaves cs && selfClosingLeaves rest)

/-- No element anywhere in the forest has `is_closing = true` (claim C6's
property as stated). -/
def noClosingMarks : List Node → Bool
  | [] => true
  | .text _ :: rest => noClosingMarks rest
  | .elem _ _ _ cg _ cs :: rest => !cg && (noClosingMarks cs && noClosingMarks rest)

/-- Every element anywhere in the forest with `is_closing = true` also has
`is_self_closing = true` (the corrected form of claim C6). -/
def closingAreSelfClosing : List Node → Bool
  | [] => true
  | .text _ :: rest => closingAreSelfClosing rest
  | .elem _ sc _ cg _ cs :: rest =>
    (!cg || sc) && (closingAreSelfClosing cs && closingAreSelfClosing rest)

theorem nodesOK_append (a b : List Node) :
    nodesOK (a ++ b) = (nodesOK a && nodesOK b) := by
  induction a with
  | nil => simp [nodesOK]
  | cons n rest ih => cases n <;> simp [nodesOK, ih, Bool.and_assoc]

/-- Invariant on elements owned by the open-element stack: none of the
three markers is set and the children assembled so far are well formed. -/
def elemInv (e : Element) : Bool :=
  !e.is_closed && !e.is_closing && !e.is_self_closing && nodesOK e.children

/-- Invariant on the current-tag scratch slot: a pending tag is never
closed and never has children. -/
def tagInv : Option Element → Bool
  | none => true
  | some e => !e.is_closed && e.children.isEmpty

/-- The assembler-state invariant maintained by every token step. -/
def stInv (st : AState) : Bool :=
  st.stack.all elemInv && (tagInv st.current_tag && nodesOK st.output)

@[simp] theorem flushAttribute_is_closing (e : Element) (ca : Option Attr) :
    (flushAttribute e ca).is_closing = e.is_closing := by cases ca <;> rfl

@[simp] theorem flushAttribute_is_self_closing (e : Element) (ca : Option Attr) :
    (flushAttribute e ca).is_self_closing = e.is_self_closing := by cases ca <;> rfl

@[simp] theorem flushAttribute_is_closed (e : Element) (ca : Option Attr) :
    (flushAttribute e ca).is_closed = e.is_closed := by cases ca <;> rfl

@[simp] theorem flushAttribute_children (e : Element) (ca : Option Attr) :
    (flushAttribute e ca).children = e.children := by cases ca <;> rfl

@[simp] theorem flushAttribute_tag_name (e : Element) (ca : Option Attr) :
    (flushAttribute e ca).tag_name = e.tag_name := by cases ca <;> rfl

theorem nodesOK_singleton_elem (tn : Option Str) (sc cl cg : Bool) (ats : List Attr)
    (cs : List Node) :
    nodesOK [.elem tn sc cl cg ats cs] =
      (((!cg || sc) && (!sc || (cs.isEmpty && !cl))) && nodesOK cs) := by
  simp [nodesOK]

theorem nodesOK_singleton_text (t : Str) : nodesOK [.text t] = true := by
  simp [nodesOK]

theorem elemInv_addChild {top : Element} {n : Node} (h : elemInv top = true)
    (hn : nodesOK [n] = true) :
    elemInv {top with children := top.children ++ [n]} = true := by
  simp only [elemInv, Bool.and_eq_true] at h ⊢
  obtain ⟨⟨⟨h1, h2⟩, h3⟩, h4⟩ := h
  exact ⟨⟨⟨h1, h2⟩, h3⟩, by simp [nodesOK_append, h4, hn]⟩

theorem attachNode_inv {S : List Element} {out : List Node} {n : Node}
    (hS : S.all elemInv = true) (hout : nodesOK out = true) (hn : nodesOK [n] = true) :
    (attachNode S out n).1.all elemInv = true ∧ nodesOK (attachNode S out n).2 = true := by
  cases S with
  | nil =>
    refine ⟨by simp [attachNode], ?_⟩
    simp [attachNode, nodesOK_append, hout, hn]
  | cons top rest =>
    simp only [List.all_cons, Bool.and_eq_true] at hS
    refine ⟨?_, by simpa [attachNode] using hout⟩
    simp only [attachNode, List.all_cons, Bool.and_eq_true]
    exact ⟨elemInv_addChild hS.1 hn, hS.2⟩

theorem handleToken_inv {st : AState} {t : Token} {st' : AState}
    (h : handleToken st t = .ok st') (hi : stInv st = true) : stInv st' = true := by
  obtain ⟨S, ct, ca, out⟩ := st
  simp only [stInv, Bool.and_eq_true] at hi
  obtain ⟨hS, hct, hout⟩ := hi
  cases t with
  | CHARACTERS tx =>
    cases S with
    | nil =>
      simp only [handleToken] at h
      split at h
      · injection h with h
        subst h
        simp only [stInv, Bool.and_eq_true]
        exact ⟨hS, hct, by simp [nodesOK_append, hout, nodesOK]⟩
      · injection h with h
        subst h
        simp only [stInv, Bool.and_eq_true]
        exact ⟨hS, hct, hout⟩
    | cons top rest =>
      simp only [handleToken] at h
      split at h
      · injection h with h
        subst h
        simp only [List.all_cons, Bool.and_eq_true] at hS
        simp only [stInv, List.all_cons, Bool.and_eq_true]
        exact ⟨⟨elemInv_addChild hS.1 (by simp [nodesOK]), hS.2⟩, hct, hout⟩
      · injection h with h
        subst h
        simp only [stInv, List.all_cons, Bool.and_eq_true] at hS ⊢
        exact ⟨hS, hct, hout⟩
  | START_TAG =>
    cases ct with
    | some e => simp [handleToken] at h
    | none =>
      simp only [handleToken] at h
      injection h with h
      subst h
      simp only [stInv, Bool.and_eq_true]
      exact ⟨hS, by simp [tagInv, Element.new, nodesOK], hout⟩
  | TAG_IS_CLOSING =>
    cases ct with
    | none => simp [handleToken] at h
    | some e =>
      simp only [tagInv, Bool.and_eq_true] at hct
      simp only [handleToken] at h
      injection h with h
      subst h
      simp only [stInv, Bool.and_eq_true]
      exact ⟨hS, by simp [tagInv, hct.1, hct.2], hout⟩
  | TAG_IS_SELF_CLOSING =>
    cases ct with
    | none => simp [handleToken] at h
    | some e =>
      simp only [tagInv, Bool.and_eq_true] at hct
      simp only [handleToken] at h
      injection h with h
      subst h
      simp only [stInv, Bool.and_eq_true]
      exact ⟨hS, by simp [tagInv, hct.1, hct.2], hout⟩
  | NAME tx =>
    cases ct with
    | none => simp [handleToken] at h
    | some e =>
      obtain ⟨tn, sc, cl, cg, ats, cs⟩ := e
      simp only [tagInv, Bool.and_eq_true] at hct
      cases tn with
      | none =>
        simp only [handleToken] at h
        injection h with h
        subst h
        simp only [stInv, Bool.and_eq_true]
        exact ⟨hS, by simpa [tagInv] using hct, hout⟩
      | some n =>
        cases ca with
        | some a =>
          simp only [handleToken] at h
          injection h with h
          subst h
          simp only [stInv, Bool.and_eq_true]
          exact ⟨hS, by simpa [tagInv] using hct, hout⟩
        | none =>
          simp only [handleToken] at h
          injection h with h
          subst h
          simp only [stInv, Bool.and_eq_true]
          exact ⟨hS, by simpa [tagInv] using hct, hout⟩
  | ATTRIBUTE_VALUE tx =>
    cases ca with
    | none => simp [handleToken] at h
    | some a =>
      simp only [handleToken] at h
      injection h with h
      subst h
      simp only [stInv, Bool.and_eq_true]
      exact ⟨hS, hct, hout⟩
  | END_TAG =>
    cases ct with
    | none => simp [handleToken] at h
    | some e0 =>
      simp only [tagInv, Bool.and_eq_true] at hct
      obtain ⟨hcl, hcs⟩ := hct
      have hcl' : e0.is_closed = false := by simpa using hcl
      have hcs' : e0.children = [] := by simpa [List.isEmpty_iff] using hcs
      have hoknode : nodesOK [(flushAttribute e0 ca).toNode]
          = ((!e0.is_closing || e0.is_self_closing)
              && (!e0.is_self_closing || true)) := by
        simp [Element.toNode, nodesOK_singleton_elem, hcl', hcs', nodesOK]
      simp only [handleToken] at h
      rw [flushAttribute_is_closing] at h
      cases S with
      | nil =>
        cases hcg : e0.is_closing with
        | true =>
          simp only [hcg] at h
          rw [flushAttribute_is_self_closing] at h
          cases hsc : e0.is_self_closing with
          | true =>
            simp only [hsc, if_pos] at h
            injection h with h
            subst h
            have hatt := @attachNode_inv [] out ((flushAttribute e0 ca).toNode)
              (by simp) hout (by simp [hoknode, hcg, hsc])
            simp only [stInv, Bool.and_eq_true]
            exact ⟨hatt.1, by simp [tagInv], hatt.2⟩
          | false => simp [hsc, hcg] at h
        | false =>
          simp only [hcg] at h
          rw [flushAttribute_is_self_closing] at h
          cases hsc : e0.is_self_closing with
          | true =>
            simp only [hsc, if_pos] at h
            injection h with h
            subst h
            have hatt := @attachNode_inv [] out ((flushAttribute e0 ca).toNode)
              (by simp) hout (by simp [hoknode, hcg, hsc])
            simp only [stInv, Bool.and_eq_true]
            exact ⟨hatt.1, by simp [tagInv], hatt.2⟩
          | false =>
            simp only [hsc, hcg, if_neg] at h
            injection h with h
            subst h
            simp only [stInv, List.all_cons, Bool.and_eq_true]
            refine ⟨⟨?_, by simp⟩, by simp [tagInv], hout⟩
            simp only [elemInv, Bool.and_eq_true]
            exact ⟨⟨⟨by simp [hcl'], by simp [hcg]⟩, by simp [hsc]⟩, by simp [hcs', nodesOK]⟩
      | cons top rest =>
        cases hcg : e0.is_closing with
        | true =>
          simp only [hcg] at h
          injection h with h
          subst h
          simp only [List.all_cons, Bool.and_eq_true] at hS
          have htop := hS.1
          simp only [elemInv, Bool.and_eq_true] at htop
          obtain ⟨⟨⟨ht1, ht2⟩, ht3⟩, ht4⟩ := htop
          have hatt := @attachNode_inv rest out (({top with is_closed := true}).toNode)
            hS.2 hout
            (by
              have ht5 : top.is_closing = false := by simpa using ht2
              have ht6 : top.is_self_closing = false := by simpa using ht3
              simp only [Element.toNode, nodesOK_singleton_elem]
              simp [ht5, ht6, ht4])
          simp only [stInv, Bool.and_eq_true]
          exact ⟨hatt.1, by simp [tagInv], hatt.2⟩
        | false =>
          simp only [hcg] at h
          rw [flushAttribute_is_self_closing] at h
          cases hsc : e0.is_self_closing with
          | true =>
            simp only [hsc, if_pos] at h
            injection h with h
            subst h
            have hatt := @attachNode_inv (top :: rest) out ((flushAttribute e0 ca).toNode)
              hS hout (by simp [hoknode, hcg, hsc])
            simp only [stInv, Bool.and_eq_true]
            exact ⟨hatt.1, by simp [tagInv], hatt.2⟩
          | false =>
            simp only [hsc, hcg, if_neg] at h
            injection h with h
            subst h
            simp only [stInv, List.all_cons, Bool.and_eq_true]
            simp only [List.all_cons, Bool.and_eq_true] at hS
            refine ⟨⟨?_, hS.1, hS.2⟩, by simp [tagInv], hout⟩
            simp only [elemInv, Bool.and_eq_true]
            exact ⟨⟨⟨by simp [hcl'], by simp [hcg]⟩, by simp [hsc]⟩, by simp [hcs', nodesOK]⟩

theorem nodesOK_toNode {e : Element} (he : elemInv e = true) : nodesOK [e.toNode] = true := by
  simp only [elemInv, Bool.and_eq_true] at he
  obtain ⟨⟨⟨h1, h2⟩, h3⟩, h4⟩ := he
  have h5 : e.is_closed = false := by simpa using h1
  have h6 : e.is_closing = false := by simpa using h2
  have h7 : e.is_self_closing = false := by simpa using h3
  simp [Element.toNode, nodesOK_singleton_elem, h5, h6, h7, h4]

theorem runTokens_inv : ∀ (ts : List Token) (st st' : AState),
    runTokens st ts = .ok st' → stInv st = true → stInv st' = true := by
  intro ts
  induction ts with
  | nil =>
    intro st st' h hi
    simp only [runTokens] at h
    injection h with h
    subst h
    exact hi
  | cons t ts ih =>
    intro st st' h hi
    simp only [runTokens] at h
    cases hh : handleToken st t with
    | error e => rw [hh] at h; simp at h
    | ok st2 => rw [hh] at h; exact ih st2 st' h (handleToken_inv hh hi)

theorem drainAux_nodesOK : ∀ (S : List Element) (e : Element) (out : List Node),
    elemInv e = true → S.all elemInv = true → nodesOK out = true →
    nodesOK (drainAux e S out) = true := by
  intro S
  induction S with
  | nil =>
    intro e out he hS hout
    simp [drainAux, nodesOK_append, hout, nodesOK_toNode he]
  | cons f rest ih =>
    intro e out he hS hout
    simp only [List.all_cons, Bool.and_eq_true] at hS
    rw [drainAux]
    exact ih _ out (elemInv_addChild hS.1 (nodesOK_toNode he)) hS.2 hout

theorem drainStack_nodesOK {S : List Element} {out : List Node}
    (hS : S.all elemInv = true) (hout : nodesOK out = true) :
    nodesOK (drainStack S out) = true := by
  cases S with
  | nil => simpa [drainStack] using hout
  | cons e rest =>
    simp only [List.all_cons, Bool.and_eq_true] at hS
    rw [drainStack]
    exact drainAux_nodesOK rest e out hS.1 hS.2 hout

theorem stInv_init : stInv initAState = true := by
  simp [stInv, initAState, tagInv, nodesOK]

theorem parseCore_inv {s : Str} {st : AState} (h : parseCore s = .ok st) :
    stInv st = true := by
  simp only [parseCore] at h
  cases hr : runTokens initAState (parse_to_stream s).1 with
  | error e => rw [hr] at h; simp at h
  | ok st1 =>
    rw [hr] at h
    dsimp only at h
    have h1 : stInv st1 = true := runTokens_inv _ _ _ hr stInv_init
    cases hp : (parse_to_stream s).2 with
    | some e => rw [hp] at h; simp at h
    | none =>
      rw [hp] at h
      dsimp only at h
      cases hc : st1.current_tag with
      | some e => rw [hc] at h; simp at h
      | none =>
        rw [hc] at h
        injection h with h
        subst h
        exact h1

/-- Master structural lemma: every successfully parsed forest satisfies
the combined tree invariant. -/
theorem parse_to_subtrees_nodesOK {s : Str} {F : List Node}
    (h : parse_to_subtrees s = .ok F) : nodesOK F = true := by
  simp only [parse_to_subtrees] at h
  cases hc : parseCore s with
  | error e => rw [hc] at h; simp at h
  | ok st =>
    rw [hc] at h
    injection h with h
    subst h
    have hi := parseCore_inv hc
    simp only [stInv, Bool.and_eq_true] at hi
    exact drainStack_nodesOK hi.1 hi.2.2

theorem nodesOK_selfClosingLeaves : ∀ ns, nodesOK ns = true → selfClosingLeaves ns = true := by
  intro ns
  induction ns using nodesOK.induct <;> simp_all [nodesOK, selfClosingLeaves]

theorem nodesOK_closingAreSelfClosing :
    ∀ ns, nodesOK ns = true → closingAreSelfClosing ns = true := by
  intro ns
  induction ns using nodesOK.induct <;> simp_all [nodesOK, closingAreSelfClosing]

theorem elemInv_is_closed {e : Element} (h : elemInv e = true) : e.is_closed = false := by
  simp only [elemInv, Bool.and_eq_true] at h
  simpa using h.1.1.1

theorem drainAux_snoc : ∀ (rest : List Element) (e f : Element) (out : List Node),
    drainAux e (rest ++ [f]) out =
      out ++ [({f with children := f.children ++ drainAux e rest []} : Element).toNode] := by
  intro rest
  induction rest with
  | nil => intro e f out; simp [drainAux]
  | cons g rest2 ih =>
    intro e f out
    rw [List.cons_append, drainAux]
    rw [ih]
    rw [show drainAux e (g :: rest2) [] =
      drainAux {g with children := g.children ++ [e.toNode]} rest2 [] from rfl]

/-- Closed form of the drain: the bottom stack element becomes the root of
the drained chain, with everything that was above it nested inside as its
last child. -/
theorem drainStack_snoc (S : List Element) (f : Element) (out : List Node) :
    drainStack (S ++ [f]) out =
      out ++ [({f with children := f.children ++ drainStack S []} : Element).toNode] := by
  cases S with
  | nil => simp [drainStack, drainAux]
  | cons e rest => rw [List.cons_append, drainStack, drainAux_snoc, drainStack]

/-! ## Claim theorems -/

/-- C2 (counterexample): the scanner does not flush a final token for every
input.  On the input `"<"` it ends in state `IN_TAG_START`, where the final
`finish()` call raises `RuntimeError("Cannot finish IN_TAG_START")` — in
the embedding, the second component of `parse_to_stream` records this
raise instead of being `none`. -/
theorem c2_counterexample :
    parse_to_stream ("<".toList) = ([.CHARACTERS [], .START_TAG], some .IN_TAG_START) := rfl

/-- C2 (amended): the scanner always produces a finite ordered token
sequence, and at end of input it flushes the pending buffer as one final
`CHARACTERS`, `NAME`, or `ATTRIBUTE_VALUE` token when it ended in state
`TEXT`, `IN_NAME`, `IN_VALUE`, or `IN_VALUE_START` respectively; in every
other final state (`IN_TAG_START`, `IN_TAG`, or a quoted-value state, i.e.
input truncated mid-tag) the final `finish()` raises `Cannot finish`. -/
theorem c2_end_of_input_flush (s : Str) (st : SState) (buf : Str) (ts : List Token)
    (h : scanChars (.TEXT, []) s = ((st, buf), ts)) :
    parse_to_stream s =
      match st with
      | .TEXT => (ts ++ [.CHARACTERS buf], none)
      | .IN_NAME => (ts ++ [.NAME buf], none)
      | .IN_VALUE => (ts ++ [.ATTRIBUTE_VALUE buf], none)
      | .IN_VALUE_START => (ts ++ [.ATTRIBUTE_VALUE buf], none)
      | st => (ts, some st) := by
  simp only [parse_to_stream, h]
  cases st <;> simp [finish]

theorem c2_witness :
    parse_to_stream ("<a".toList) =
      ([.CHARACTERS [], .START_TAG, .NAME ("a".toList)], none) :=
  c2_end_of_input_flush ("<a".toList) .IN_NAME ("a".toList) [.CHARACTERS [], .START_TAG] rfl

/-- C3 (counterexample): on a fatal condition the partial forest is NOT
returned.  Parsing `"x</a>"` has already built the partial forest
`["x"]` when the unmatched closing tag fires, but `parse_to_subtrees`
raises (returns only the error), discarding it; no token index is
reported either. -/
theorem c3_counterexample :
    parse_to_subtrees ("x</a>".toList) = .error (.unexpectedClosing (some ("a".toList))) := rfl

/-- C3 (amended): on every fatal condition `parse_to_subtrees` stops by
raising an error that identifies the condition (unmatched top-level
closing tag with the offending tag name, pending tag at end of input,
`AttributeValue` without a pending attribute as an assertion failure, and
a scanner `Cannot finish` raise for input truncated mid-tag); the partial
forest is discarded rather than returned, and no token index is
reported. -/
theorem c3_fatal_conditions :
    parse_to_subtrees ("</a>".toList) = .error (.unexpectedClosing (some ("a".toList))) ∧
    parse_to_subtrees ("<a".toList) = .error .finalTagPending ∧
    parse_to_subtrees ("<a =>".toList) = .error .assertNoAttribute ∧
    parse_to_subtrees ("x<".toList) = .error (.cannotFinish .IN_TAG_START) :=
  ⟨rfl, rfl, rfl, rfl⟩

/-- C4: `"<a><b></a>"` parses without a fatal error: `</a>` pops `b` by
stack position (the name mismatch is only a printed diagnostic), so the
forest is one open element `a` whose single child is the closed element
`b`; and in general, on `END_TAG` a closing tag with a non-empty stack
always pops and closes the innermost open element, regardless of its
name. -/
theorem c4_positional_close :
    parse_to_subtrees ("<a><b></a>".toList) =
      .ok [.elem (some ("a".toList)) false false false []
        [.elem (some ("b".toList)) false true false [] []]] ∧
    ∀ (top : Element) (rest : List Element) (e : Element) (ca : Option Attr)
      (out : List Node), e.is_closing = true →
      handleToken ⟨top :: rest, some e, ca, out⟩ .END_TAG =
        .ok ⟨(attachNode rest out ({top with is_closed := true}).toNode).1, none, none,
          (attachNode rest out ({top with is_closed := true}).toNode).2⟩ := by
  refine ⟨rfl, ?_⟩
  intro top rest e ca out hcg
  simp [handleToken, hcg]

theorem c4_witness :
    handleToken ⟨[Element.new], some {Element.new with is_closing := true}, none, []⟩
        .END_TAG =
      .ok ⟨(attachNode [] [] ({Element.new with is_closed := true}).toNode).1, none, none,
        (attachNode [] [] ({Element.new with is_closed := true}).toNode).2⟩ :=
  c4_positional_close.2 Element.new [] {Element.new with is_closing := true} none [] rfl

/-- C5: for every input accepted without a fatal error, the forest is the
output built so far followed by the drained stack; every element still on
the stack has `is_closed = false` (never closed by an end-of-input
repair); the drain attaches each element to the one newly exposed beneath
it, so the bottom element roots the chain with everything above nested
inside (preserving document order), as the three-level example
`"<a><b><c>"` shows concretely. -/
theorem c5_drain_order (s : Str) (st : AState) (h : parseCore s = .ok st) :
    (∀ e ∈ st.stack, e.is_closed = false) ∧
    parse_to_subtrees s = .ok (st.output ++ drainStack st.stack []) ∧
    (∀ (S : List Element) (f : Element) (out : List Node),
      drainStack (S ++ [f]) out =
        out ++ [({f with children := f.children ++ drainStack S []} : Element).toNode]) ∧
    parse_to_subtrees ("<a><b><c>".toList) =
      .ok [.elem (some ("a".toList)) false false false []
        [.elem (some ("b".toList)) false false false []
          [.elem (some ("c".toList)) false false false [] []]]] := by
  have hi := parseCore_inv h
  simp only [stInv, Bool.and_eq_true] at hi
  refine ⟨?_, ?_, fun S f out => drainStack_snoc S f out, rfl⟩
  · intro e he
    have h1 := hi.1
    rw [List.all_eq_true] at h1
    exact elemInv_is_closed (h1 e he)
  · simp only [parse_to_subtrees, h]
    rw [drainStack_out]

theorem c5_witness :
    parse_to_subtrees ("<a><b><c>".toList) =
      .ok (([] : List Node) ++ drainStack
        [⟨some ("c".toList), false, false, false, [], []⟩,
         ⟨some ("b".toList), false, false, false, [], []⟩,
         ⟨some ("a".toList), false, false, false, [], []⟩] []) :=
  (c5_drain_order ("<a><b><c>".toList)
    ⟨[⟨some ("c".toList), false, false, false, [], []⟩,
      ⟨some ("b".toList), false, false, false, [], []⟩,
      ⟨some ("a".toList), false, false, false, [], []⟩], none, none, []⟩ rfl).2.1

/-- C6 (counterexample): an element with `is_closing = true` CAN appear in
the final tree: a tag that is both closing and self-closing at empty
stack, e.g. the input `"</a/>"`, is attached to the forest by the
self-closing branch with its `is_closing` marker still set. -/
theorem c6_counterexample :
    parse_to_subtrees ("</a/>".toList) =
      .ok [.elem (some ("a".toList)) true false true [] []] ∧
    noClosingMarks [.elem (some ("a".toList)) true false true [] []] = false :=
  ⟨rfl, by simp [noClosingMarks]⟩

/-- C6 (amended): every element in a successfully parsed forest with
`is_closing = true` also has `is_self_closing = true` — a closing-tag node
that is not also self-closing is always consumed by assembly and never
emitted into children or the forest. -/
theorem c6_closing_only_if_self_closing (s : Str) (F : List Node)
    (h : parse_to_subtrees s = .ok F) : closingAreSelfClosing F = true :=
  nodesOK_closingAreSelfClosing F (parse_to_subtrees_nodesOK h)

theorem c6_witness :
    closingAreSelfClosing [Node.elem (some ("a".toList)) true false true [] []] = true :=
  c6_closing_only_if_self_closing ("</a/>".toList)
    [Node.elem (some ("a".toList)) true false true [] []] rfl

/-- C7: in every successfully parsed forest, every element at any depth
with `is_self_closing = true` has no children and `is_closed = false`:
self-closing tags are attached as childless leaves (they are never pushed
onto the open-element stack, so they can neither gain children nor be
closed). -/
theorem c7_self_closing_leaves (s : Str) (F : List Node)
    (h : parse_to_subtrees s = .ok F) : selfClosingLeaves F = true :=
  nodesOK_selfClosingLeaves F (parse_to_subtrees_nodesOK h)

theorem c7_witness :
    selfClosingLeaves [Node.elem (some ("p".toList)) false false false []
      [Node.text ("hello".toList),
       Node.elem (some ("br".toList)) true false false [] [],
       Node.text ("world".toList)]] = true :=
  c7_self_closing_leaves ("<p>hello<br/>world".toList)
    [Node.elem (some ("p".toList)) false false false []
      [Node.text ("hello".toList),
       Node.elem (some ("br".toList)) true false false [] [],
       Node.text ("world".toList)]] rfl

/-- C8: parsing `"<a title=\"a>b\">x</a>"` yields one closed element `a`
whose attribute `title` has the verbatim value `"a>b"` (quotes included),
with the single text child `"x"`: the `>` inside the quoted value does not
end the opening tag, the final `>` outside the quotes does. -/
theorem c8_quoted_value :
    parse_to_subtrees ("<a title=\"a>b\">x</a>".toList) =
      .ok [.elem (some ("a".toList)) false true false
        [("title".toList, some ("\"a>b\"".toList))] [.text ("x".toList)]] := rfl

/-- C9 (counterexample): the scanner CAN emit an `ATTRIBUTE_VALUE` token
with no pending attribute in the assembler: a `=` inside a tag before any
second `NAME` (input `"<a =>"`) routes the scanner to value scanning, and
the assembler's `assert current_attribute is not None` fails. -/
theorem c9_counterexample :
    parse_to_stream ("<a =>".toList) =
      ([.CHARACTERS [], .START_TAG, .NAME ("a".toList), .ATTRIBUTE_VALUE [],
        .END_TAG, .CHARACTERS []], none) ∧
    parse_to_subtrees ("<a =>".toList) = .error .assertNoAttribute :=
  ⟨rfl, rfl⟩

/-- C9 (amended): the assembler's AttributeValue-without-pending-attribute
branch is reachable: when `=` appears in a tag with only the tag name
scanned (e.g. `"<a = b>"`), the scanner emits an `ATTRIBUTE_VALUE` token
although no attribute is pending, and `parse_to_subtrees` fails with the
corresponding assertion error. -/
theorem c9_unterminated_attribute_reachable :
    parse_to_stream ("<a = b>".toList) =
      ([.CHARACTERS [], .START_TAG, .NAME ("a".toList), .ATTRIBUTE_VALUE ("b".toList),
        .END_TAG, .CHARACTERS []], none) ∧
    parse_to_subtrees ("<a = b>".toList) = .error .assertNoAttribute :=
  ⟨rfl, rfl⟩

/-! ## Scanner/assembler tag-pendency tracking (claim C10) -/

/-- Whether a scanner state is inside a tag (every state except TEXT). -/
def tagOpen : SState → Bool
  | .TEXT => false
  | _ => true

/-- Token-level automaton tracking whether a tag is pending: `START_TAG`
only from the no-pending state, `END_TAG` back to it, tag-body tokens only
while pending, `CHARACTERS` only while not pending. -/
def tokStep : Bool → Token → Option Bool
  | false, .CHARACTERS _ => some false
  | false, .START_TAG => some true
  | true, .END_TAG => some false
  | true, .TAG_IS_CLOSING => some true
  | true, .TAG_IS_SELF_CLOSING => some true
  | true, .NAME _ => some true
  | true, .ATTRIBUTE_VALUE _ => some true
  | _, _ => none

def tokRun : Bool → List Token → Option Bool
  | b, [] => some b
  | b, t :: ts =>
    match tokStep b t with
    | none => none
    | some b2 => tokRun b2 ts

theorem tokRun_append (b : Bool) (t1 t2 : List Token) :
    tokRun b (t1 ++ t2) =
      match tokRun b t1 with
      | none => none
      | some b2 => tokRun b2 t2 := by
  induction t1 generalizing b with
  | nil => simp [tokRun]
  | cons t ts ih =>
    simp only [List.cons_append, tokRun]
    cases tokStep b t <;> simp [ih]

theorem scanStep_tokRun (st : SState × Str) (c : Char) :
    tokRun (tagOpen st.1) (scanStep st c).2 = some (tagOpen (scanStep st c).1.1) := by
  obtain ⟨s, buf⟩ := st
  cases s <;> simp only [scanStep] <;> split_ifs <;> simp [tokRun, tokStep, tagOpen]

theorem scanChars_tokRun : ∀ (cs : List Char) (st : SState × Str),
    tokRun (tagOpen st.1) (scanChars st cs).2 = some (tagOpen (scanChars st cs).1.1) := by
  intro cs
  induction cs with
  | nil => intro st; simp [scanChars, tokRun]
  | cons c cs ih =>
    intro st
    simp only [scanChars]
    rw [tokRun_append, scanStep_tokRun]
    exact ih (scanStep st c).1

theorem parse_to_stream_tokRun (s : Str) :
    (tokRun false (parse_to_stream s).1).isSome = true := by
  have hrun := scanChars_tokRun s (.TEXT, [])
  rcases hsc : scanChars (.TEXT, []) s with ⟨⟨fst, buf⟩, ts⟩
  rw [hsc] at hrun
  simp only [parse_to_stream, hsc]
  cases fst <;>
    · simp only [tagOpen] at hrun
      simp [finish, tokRun_append, hrun, tokRun, tokStep]

theorem handleToken_tag_tracking {st : AState} {t : Token} {b b1 : Bool}
    (hts : tokStep b t = some b1) (hct : st.current_tag.isSome = b) :
    handleToken st t ≠ .error .assertTagPending ∧
    (∀ st1, handleToken st t = .ok st1 → st1.current_tag.isSome = b1) := by
  obtain ⟨S, ct, ca, out⟩ := st
  simp only at hct
  cases t with
  | CHARACTERS tx =>
    cases b with
    | true => simp [tokStep] at hts
    | false =>
      simp only [tokStep, Option.some.injEq] at hts
      subst hts
      constructor
      · intro he
        simp only [handleToken] at he
        split at he
        · cases S <;> simp at he
        · simp at he
      · intro st1 h1
        simp only [handleToken] at h1
        split at h1
        · cases S with
          | nil => injection h1 with h1; subst h1; exact hct
          | cons top rest => injection h1 with h1; subst h1; exact hct
        · injection h1 with h1; subst h1; exact hct
  | START_TAG =>
    cases b with
    | true => simp [tokStep] at hts
    | false =>
      simp only [tokStep, Option.some.injEq] at hts
      subst hts
      cases ct with
      | some e => simp at hct
      | none =>
        constructor
        · intro he; simp [handleToken] at he
        · intro st1 h1
          simp only [handleToken] at h1
          injection h1 with h1
          subst h1
          rfl
  | TAG_IS_CLOSING =>
    cases b with
    | false => simp [tokStep] at hts
    | true =>
      simp only [tokStep, Option.some.injEq] at hts
      subst hts
      cases ct with
      | none => simp at hct
      | some e =>
        constructor
        · intro he; simp [handleToken] at he
        · intro st1 h1
          simp only [handleToken] at h1
          injection h1 with h1
          subst h1
          rfl
  | TAG_IS_SELF_CLOSING =>
    cases b with
    | false => simp [tokStep] at hts
    | true =>
      simp only [tokStep, Option.some.injEq] at hts
      subst hts
      cases ct with
      | none => simp at hct
      | some e =>
        constructor
        · intro he; simp [handleToken] at he
        · intro st1 h1
          simp only [handleToken] at h1
          injection h1 with h1
          subst h1
          rfl
  | NAME tx =>
    cases b with
    | false => simp [tokStep] at hts
    | true =>
      simp only [tokStep, Option.some.injEq] at hts
      subst hts
      cases ct with
      | none => simp at hct
      | some e =>
        constructor
        · intro he
          simp only [handleToken] at he
          cases htn : e.tag_name <;> rw [htn] at he
          · simp at he
          · cases ca <;> simp at he
        · intro st1 h1
          simp only [handleToken] at h1
          cases htn : e.tag_name <;> rw [htn] at h1
          · injection h1 with h1; subst h1; rfl
          · cases ca with
            | none => injection h1 with h1; subst h1; rfl
            | some a => injection h1 with h1; subst h1; rfl
  | ATTRIBUTE_VALUE tx =>
    cases b with
    | false => simp [tokStep] at hts
    | true =>
      simp only [tokStep, Option.some.injEq] at hts
      subst hts
      cases ct with
      | none => simp at hct
      | some e =>
        constructor
        · intro he
          simp only [handleToken] at he
          cases ca <;> simp at he
        · intro st1 h1
          simp only [handleToken] at h1
          cases ca with
          | none => simp at h1
          | some a => injection h1 with h1; subst h1; exact hct
  | END_TAG =>
    cases b with
    | false => simp [tokStep] at hts
    | true =>
      simp only [tokStep, Option.some.injEq] at hts
      subst hts
      cases ct with
      | none => simp at hct
      | some e =>
        constructor
        · intro he
          simp only [handleToken] at he
          split at he
          · simp at he
          · split at he
            · simp at he
            · split at he
              · simp at he
              · simp at he
        · intro st1 h1
          simp only [handleToken] at h1
          split at h1
          · injection h1 with h1; subst h1; rfl
          · split at h1
            · injection h1 with h1; subst h1; rfl
            · split at h1
              · simp at h1
              · injection h1 with h1; subst h1; rfl

theorem runTokens_no_assertTagPending : ∀ (ts : List Token) (b b2 : Bool) (st : AState),
    tokRun b ts = some b2 → st.current_tag.isSome = b →
    runTokens st ts ≠ .error .assertTagPending := by
  intro ts
  induction ts with
  | nil =>
    intro b b2 st hr hct h
    simp [runTokens] at h
  | cons t ts ih =>
    intro b b2 st hr hct h
    simp only [tokRun] at hr
    cases hts : tokStep b t with
    | none => rw [hts] at hr; simp at hr
    | some b1 =>
      rw [hts] at hr
      dsimp only at hr
      have htr := handleToken_tag_tracking hts hct
      simp only [runTokens] at h
      cases hh : handleToken st t with
      | error e =>
        rw [hh] at h
        dsimp only at h
        injection h with h
        subst h
        exact htr.1 hh
      | ok st1 =>
        rw [hh] at h
        exact ih b1 b2 st1 hr (htr.2 st1 hh) h

/-- C10: the scanner's token stream always drives the tag-pendency
automaton (so an `END_TAG` stands between any two consecutive
`START_TAG`s, `START_TAG` being emitted only from the TEXT state), and
consequently the assembler's StartTag-while-a-tag-is-pending assertion
(`assert current_tag is None`) can never be the error of
`parse_to_subtrees`: the pending-tag scratch slot is empty whenever a
`START_TAG` is processed. -/
theorem c10_start_tag_unreachable (s : Str) :
    (tokRun false (parse_to_stream s).1).isSome = true ∧
    parse_to_subtrees s ≠ .error .assertTagPending := by
  refine ⟨parse_to_stream_tokRun s, ?_⟩
  intro h
  simp only [parse_to_subtrees] at h
  cases hc : parseCore s with
  | ok st => rw [hc] at h; simp at h
  | error e =>
    rw [hc] at h
    dsimp only at h
    injection h with h
    subst h
    simp only [parseCore] at hc
    cases hr : runTokens initAState (parse_to_stream s).1 with
    | error e2 =>
      rw [hr] at hc
      dsimp only at hc
      injection hc with hc
      subst hc
      have hsome := parse_to_stream_tokRun s
      cases htr : tokRun false (parse_to_stream s).1 with
      | none => rw [htr] at hsome; simp at hsome
      | some b2 =>
        exact runTokens_no_assertTagPending _ false b2 initAState htr rfl hr
    | ok st1 =>
      rw [hr] at hc
      dsimp only at hc
      cases hp : (parse_to_stream s).2 with
      | some st2 => rw [hp] at hc; simp at hc
      | none =>
        rw [hp] at hc
        dsimp only at hc
        cases hct : st1.current_tag with
        | some e3 => rw [hct] at hc; simp at hc
        | none => rw [hct] at hc; simp at hc

/-! ## Well-formed inputs and the round-trip (claim C1) -/

/-- Characters acceptable in a tag or attribute name for a well-formed
input (none of the scanner's structural characters). -/
def nameChar (c : Char) : Bool :=
  !(c == '<' || c == '>' || c == '/' || c == '=' || c == '"' || c == '\'' || isWS c)

/-- Characters acceptable in a top-level or child text run. -/
def textChar (c : Char) : Bool := !(c == '<')

/-- Characters acceptable in an unquoted attribute value. -/
def uqChar (c : Char) : Bool :=
  !(c == '<' || c == '>' || c == '/' || c == '=' || c == '"' || c == '\'' || isWS c)

def goodName (n : Str) : Prop := n ≠ [] ∧ ∀ c ∈ n, nameChar c = true

def goodText (t : Str) : Prop := t ≠ [] ∧ ∀ c ∈ t, textChar c = true

/-- A serializable attribute value: unquoted (no structural characters),
or fully double- or single-quoted with no inner quote of the same kind
(the quotes are part of the stored value). -/
def goodValue (v : Str) : Prop :=
  (v ≠ [] ∧ ∀ c ∈ v, uqChar c = true) ∨
  (∃ inner, v = '"' :: inner ++ ['"'] ∧ ∀ c ∈ inner, (c == '"') = false) ∨
  (∃ inner, v = '\'' :: inner ++ ['\''] ∧ ∀ c ∈ inner, (c == '\'') = false)

def goodOValue : Option Str → Prop
  | none => True
  | some w => goodValue w

def goodAttr (a : Attr) : Prop := goodName a.1 ∧ goodOValue a.2

def goodAttrs (ats : List Attr) : Prop := ∀ a ∈ ats, goodAttr a

/-- Canonical forests: the forests `parse_to_subtrees` itself produces on
well-formed input.  `Canon allowOpen noText ns` holds when `ns` is a
well-formed node sequence; `allowOpen` permits one unclosed (open) element
as the final item (recursively in tail position), and `noText` forbids a
leading text run (used to rule out adjacent text runs, which the scanner
would merge). -/
inductive Canon : Bool → Bool → List Node → Prop
  | nil (a p : Bool) : Canon a p []
  | text (a : Bool) (t : Str) (rest : List Node) :
      goodText t → Canon a true rest → Canon a false (.text t :: rest)
  | selfc (a p : Bool) (n : Str) (ats : List Attr) (rest : List Node) :
      goodName n → goodAttrs ats → Canon a false rest →
      Canon a p (.elem (some n) true false false ats [] :: rest)
  | closed (a p : Bool) (n : Str) (ats : List Attr) (cs rest : List Node) :
      goodName n → goodAttrs ats → Canon false false cs → Canon a false rest →
      Canon a p (.elem (some n) false true false ats cs :: rest)
  | openE (p : Bool) (n : Str) (ats : List Attr) (cs : List Node) :
      goodName n → goodAttrs ats → Canon true false cs →
      Canon true p [.elem (some n) false false false ats cs]

/-- A well-formed input: the serialization of some canonical forest. -/
def WellFormedInput (s : Str) : Prop :=
  ∃ F, Canon true false F ∧ serializeForest F = s

/-- The source text of one attribute as the serializer writes it, and the
tokens the scanner recovers from it. -/
def attrToks (a : Attr) : List Token :=
  .NAME a.1 :: (match a.2 with | none => [] | some v => [.ATTRIBUTE_VALUE v])

/-- The tokens yielded while scanning one attribute itself (its own flush
stays pending): the `NAME` flushed at `=` when the attribute has a
value. -/
def attrMid (a : Attr) : List Token :=
  match a.2 with
  | none => []
  | some _ => [.NAME a.1]

def attrsToks : List Attr → List Token
  | [] => []
  | a :: rest => attrToks a ++ attrsToks rest

def openTagStr (n : Str) (ats : List Attr) (sc : Bool) : Str :=
  '<' :: (n ++ attrsStr ats ++ (if sc then ['/'] else []) ++ ['>'])

def closeTagStr (n : Str) : Str := '<' :: '/' :: (n ++ ['>'])

/-- Text still pending in the scanner's buffer after scanning the
serialization of `ns`, starting with `buf` pending. -/
def trailingT : List Node → Str → Str
  | [], buf => buf
  | .text t :: rest, buf => trailingT rest (buf ++ t)
  | .elem _ sc cl _ _ cs :: rest, _ =>
      if sc || cl then trailingT rest [] else trailingT cs []

/-- The token sequence the scanner yields on the serialization of `ns`
(with `buf` pending), excluding the final end-of-input flush. -/
def nodesToks : List Node → Str → List Token
  | [], _ => []
  | .text t :: rest, buf => nodesToks rest (buf ++ t)
  | .elem tn sc cl _ ats cs :: rest, buf =>
      [.CHARACTERS buf, .START_TAG, .NAME (tn.getD [])] ++ attrsToks ats ++
        (if sc then [.TAG_IS_SELF_CLOSING, .END_TAG] ++ nodesToks rest []
         else if cl then
           [.END_TAG] ++ nodesToks cs [] ++
             [.CHARACTERS (trailingT cs []), .START_TAG, .TAG_IS_CLOSING,
              .NAME (tn.getD []), .END_TAG] ++ nodesToks rest []
         else [.END_TAG] ++ nodesToks cs [])

/-- The nodes of `ns` other than the trailing chain of open elements. -/
def closedPart : List Node → List Node
  | [] => []
  | .text t :: rest => .text t :: closedPart rest
  | .elem tn sc cl cg ats cs :: rest =>
      if sc || cl then .elem tn sc cl cg ats cs :: closedPart rest else closedPart rest

/-- The open elements of `ns` as they sit on the assembler's stack after
the corresponding tokens are processed (head = innermost). -/
def openSpine : List Node → List Element
  | [] => []
  | .text _ :: rest => openSpine rest
  | .elem tn sc cl cg ats cs :: rest =>
      if sc || cl then openSpine rest
      else openSpine cs ++ [⟨tn, sc, cl, cg, ats, closedPart cs⟩]

def textOpt : Str → List Node
  | [] => []
  | t => [.text t]

def attachList : List Element × List Node → List Node → List Element × List Node
  | p, [] => p
  | (S, out), n :: ns => attachList (attachNode S out n) ns

/-- Per-attribute net effect of the assembler: flush the previous pending
attribute into the element and make this one pending. -/
def pushAttrP : Element × Option Attr → Attr → Element × Option Attr
  | (e, ca), a => (flushAttribute e ca, some a)

theorem nameChar_split {c : Char} (h : nameChar c = true) :
    (c == '<') = false ∧ (c == '>') = false ∧ (c == '/') = false ∧ (c == '=') = false ∧
    (c == '"') = false ∧ (c == '\'') = false ∧ isWS c = false := by
  simp only [nameChar, Bool.not_eq_true', Bool.or_eq_false_iff] at h
  exact ⟨h.1.1.1.1.1.1, h.1.1.1.1.1.2, h.1.1.1.1.2, h.1.1.1.2, h.1.1.2, h.1.2, h.2⟩

theorem uqChar_split {c : Char} (h : uqChar c = true) :
    (c == '<') = false ∧ (c == '>') = false ∧ (c == '/') = false ∧ (c == '=') = false ∧
    (c == '"') = false ∧ (c == '\'') = false ∧ isWS c = false := by
  simp only [uqChar, Bool.not_eq_true', Bool.or_eq_false_iff] at h
  exact ⟨h.1.1.1.1.1.1, h.1.1.1.1.1.2, h.1.1.1.1.2, h.1.1.1.2, h.1.1.2, h.1.2, h.2⟩

theorem scanText_acc : ∀ (t buf : Str), (∀ c ∈ t, textChar c = true) →
    scanChars (.TEXT, buf) t = ((.TEXT, buf ++ t), []) := by
  intro t
  induction t with
  | nil => intro buf h; simp [scanChars]
  | cons c cs ih =>
    intro buf h
    have hc : (c == '<') = false := by
      have := h c (by simp)
      simpa [textChar, Bool.not_eq_true'] using this
    simp only [scanChars, scanStep, hc]
    rw [if_neg (by simp [hc])]
    rw [ih (buf ++ [c]) (fun d hd => h d (by simp [hd]))]
    simp

theorem scanName_acc : ∀ (t buf : Str), (∀ c ∈ t, nameChar c = true) →
    scanChars (.IN_NAME, buf) t = ((.IN_NAME, buf ++ t), []) := by
  intro t
  induction t with
  | nil => intro buf h; simp [scanChars]
  | cons c cs ih =>
    intro buf h
    obtain ⟨-, h1, h2, h3, -, -, h4⟩ := nameChar_split (h c (by simp))
    simp only [scanChars, scanStep, h1, h2, h3, h4, Bool.false_eq_true, if_false]
    rw [ih (buf ++ [c]) (fun d hd => h d (by simp [hd]))]
    simp

theorem scanValueChars_acc : ∀ (t buf : Str), (∀ c ∈ t, uqChar c = true) →
    scanChars (.IN_VALUE, buf) t = ((.IN_VALUE, buf ++ t), []) := by
  intro t
  induction t with
  | nil => intro buf h; simp [scanChars]
  | cons c cs ih =>
    intro buf h
    obtain ⟨-, h1, h2, h3, h5, h6, h4⟩ := uqChar_split (h c (by simp))
    simp only [scanChars, scanStep, h1, h2, h3, h4, h5, h6, Bool.false_eq_true, if_false]
    rw [ih (buf ++ [c]) (fun d hd => h d (by simp [hd]))]
    simp

theorem scanDq_acc : ∀ (t buf : Str), (∀ c ∈ t, (c == '"') = false) →
    scanChars (.IN_DOUBLE_QUOTED_VALUE, buf) t = ((.IN_DOUBLE_QUOTED_VALUE, buf ++ t), []) := by
  intro t
  induction t with
  | nil => intro buf h; simp [scanChars]
  | cons c cs ih =>
    intro buf h
    have h1 := h c (by simp)
    simp only [scanChars, scanStep, h1, Bool.false_eq_true, if_false]
    rw [ih (buf ++ [c]) (fun d hd => h d (by simp [hd]))]
    simp

theorem scanSq_acc : ∀ (t buf : Str), (∀ c ∈ t, (c == '\'') = false) →
    scanChars (.IN_SINGLE_QUOTED_VALUE, buf) t = ((.IN_SINGLE_QUOTED_VALUE, buf ++ t), []) := by
  intro t
  induction t with
  | nil => intro buf h; simp [scanChars]
  | cons c cs ih =>
    intro buf h
    have h1 := h c (by simp)
    simp only [scanChars, scanStep, h1, Bool.false_eq_true, if_false]
    rw [ih (buf ++ [c]) (fun d hd => h d (by simp [hd]))]
    simp

/-- Scanning a well-formed attribute value from `IN_VALUE_START` ends in
`IN_VALUE` with the full (possibly quoted) value accumulated. -/
theorem scanValue {v : Str} (h : goodValue v) :
    scanChars (.IN_VALUE_START, []) v = ((.IN_VALUE, v), []) := by
  rcases h with ⟨hne, hall⟩ | ⟨inner, rfl, hin⟩ | ⟨inner, rfl, hin⟩
  · cases v with
    | nil => exact absurd rfl hne
    | cons c cs =>
      obtain ⟨-, h1, h2, h3, h5, h6, h4⟩ := uqChar_split (hall c (by simp))
      simp only [scanChars, scanStep, h1, h2, h3, h4, h5, h6, Bool.false_eq_true, if_false,
        List.nil_append]
      rw [scanValueChars_acc cs [c] (fun d hd => hall d (by simp [hd]))]
      simp
  · show scanChars (.IN_VALUE_START, []) ('"' :: (inner ++ ['"'])) = _
    rw [show ('"' :: (inner ++ ['"']) : Str) = ['"'] ++ (inner ++ ['"']) from rfl]
    rw [scanChars_append]
    rw [show scanChars (.IN_VALUE_START, []) ['"'] = ((.IN_DOUBLE_QUOTED_VALUE, ['"']), [])
      from rfl]
    rw [scanChars_append]
    rw [show (((.IN_DOUBLE_QUOTED_VALUE, ['"']), ([] : List Token)) :
      (SState × Str) × List Token).1 = (.IN_DOUBLE_QUOTED_VALUE, ['"']) from rfl]
    rw [scanDq_acc inner ['"'] hin]
    rw [show scanChars (.IN_DOUBLE_QUOTED_VALUE, ['"'] ++ inner) ['"'] =
      ((.IN_VALUE, (['"'] ++ inner) ++ ['"']), []) from rfl]
    simp
  · show scanChars (.IN_VALUE_START, []) ('\'' :: (inner ++ ['\''])) = _
    rw [show ('\'' :: (inner ++ ['\'']) : Str) = ['\''] ++ (inner ++ ['\'']) from rfl]
    rw [scanChars_append]
    rw [show scanChars (.IN_VALUE_START, []) ['\''] = ((.IN_SINGLE_QUOTED_VALUE, ['\'']), [])
      from rfl]
    rw [scanChars_append]
    rw [show (((.IN_SINGLE_QUOTED_VALUE, ['\'']), ([] : List Token)) :
      (SState × Str) × List Token).1 = (.IN_SINGLE_QUOTED_VALUE, ['\'']) from rfl]
    rw [scanSq_acc inner ['\''] hin]
    rw [show scanChars (.IN_SINGLE_QUOTED_VALUE, ['\''] ++ inner) ['\''] =
      ((.IN_VALUE, (['\''] ++ inner) ++ ['\'']), []) from rfl]
    simp

/-- The scanner state pending between attributes: a name or an unquoted /
just-closed-quoted value being accumulated. -/
def PendSt (p : SState × Str) : Prop := p.1 = .IN_NAME ∨ p.1 = .IN_VALUE

/-- The token `finish` would produce for a pending state. -/
def flushTok : SState × Str → Token
  | (.IN_NAME, b) => .NAME b
  | (_, b) => .ATTRIBUTE_VALUE b

def attrPend (a : Attr) : SState × Str :=
  match a.2 with
  | none => (.IN_NAME, a.1)
  | some v => (.IN_VALUE, v)

theorem pendStep_ws {p : SState × Str} (h : PendSt p) :
    scanStep p ' ' = ((.IN_TAG, []), [flushTok p]) := by
  obtain ⟨s, b⟩ := p
  rcases h with h | h <;> (simp only at h; subst h) <;> rfl

theorem pendStep_slash {p : SState × Str} (h : PendSt p) :
    scanStep p '/' = ((.IN_TAG, []), [flushTok p, .TAG_IS_SELF_CLOSING]) := by
  obtain ⟨s, b⟩ := p
  rcases h with h | h <;> (simp only at h; subst h) <;> rfl

theorem pendStep_gt {p : SState × Str} (h : PendSt p) :
    scanStep p '>' = ((.TEXT, []), [flushTok p, .END_TAG]) := by
  obtain ⟨s, b⟩ := p
  rcases h with h | h <;> (simp only at h; subst h) <;> rfl

theorem scanNameFromTagStart {n : Str} (hn : goodName n) :
    scanChars (.IN_TAG_START, []) n = ((.IN_NAME, n), []) := by
  obtain ⟨hne, hall⟩ := hn
  cases n with
  | nil => exact absurd rfl hne
  | cons c cs =>
    obtain ⟨-, -, h2, -, -, -, h4⟩ := nameChar_split (hall c (by simp))
    have hstep : scanStep (.IN_TAG_START, []) c = ((.IN_NAME, [c]), []) := by
      simp [scanStep, h2, h4]
    simp only [scanChars, hstep]
    rw [scanName_acc cs [c] (fun d hd => hall d (by simp [hd]))]
    simp

theorem scanNameFromInTag {n : Str} (hn : goodName n) :
    scanChars (.IN_TAG, []) n = ((.IN_NAME, n), []) := by
  obtain ⟨hne, hall⟩ := hn
  cases n with
  | nil => exact absurd rfl hne
  | cons c cs =>
    obtain ⟨-, h1, h2, h3, -, -, h4⟩ := nameChar_split (hall c (by simp))
    have hstep : scanStep (.IN_TAG, []) c = ((.IN_NAME, [c]), []) := by
      simp [scanStep, h1, h2, h3, h4]
    simp only [scanChars, hstep]
    rw [scanName_acc cs [c] (fun d hd => hall d (by simp [hd]))]
    simp

theorem scanAttr {n : Str} {v : Option Str} (hn : goodName n) (hv : goodOValue v)
    {p : SState × Str} (hp : PendSt p) :
    scanChars p (attrStr (n, v)) = (attrPend (n, v), flushTok p :: attrMid (n, v)) := by
  cases v with
  | none =>
    rw [show attrStr (n, none) = [' '] ++ n by simp [attrStr]]
    rw [scanChars_append]
    rw [show scanChars p [' '] = ((.IN_TAG, []), [flushTok p]) by
      simp [scanChars, pendStep_ws hp]]
    dsimp only
    rw [scanNameFromInTag hn]
    simp [attrPend, attrMid]
  | some w =>
    rw [show attrStr (n, some w) = ([' '] ++ (n ++ ['='])) ++ w by simp [attrStr]]
    rw [scanChars_append, scanChars_append]
    rw [show scanChars p [' '] = ((.IN_TAG, []), [flushTok p]) by
      simp [scanChars, pendStep_ws hp]]
    dsimp only
    rw [scanChars_append]
    rw [scanNameFromInTag hn]
    dsimp only
    rw [show scanChars (.IN_NAME, n) ['='] = ((.IN_VALUE_START, []), [.NAME n]) from rfl]
    dsimp only
    rw [scanValue hv]
    simp [attrPend, attrMid]

def attrsPendF : List Attr → SState × Str → SState × Str
  | [], p => p
  | a :: rest, _ => attrsPendF rest (attrPend a)

def attrsToksSh : List Attr → SState × Str → List Token
  | [], _ => []
  | a :: rest, p => (flushTok p :: attrMid a) ++ attrsToksSh rest (attrPend a)

theorem attrPend_pendSt (a : Attr) : PendSt (attrPend a) := by
  obtain ⟨n, v⟩ := a
  cases v <;> simp [attrPend, PendSt]

theorem attrsPendF_pendSt : ∀ (ats : List Attr) (p : SState × Str),
    PendSt p → PendSt (attrsPendF ats p) := by
  intro ats
  induction ats with
  | nil => intro p h; exact h
  | cons a rest ih => intro p h; exact ih (attrPend a) (attrPend_pendSt a)

theorem scanAttrsStr : ∀ (ats : List Attr), goodAttrs ats → ∀ p, PendSt p →
    scanChars p (attrsStr ats) = (attrsPendF ats p, attrsToksSh ats p) := by
  intro ats
  induction ats with
  | nil => intro _ p hp; simp [attrsStr, scanChars, attrsPendF, attrsToksSh]
  | cons a rest ih =>
    intro hats p hp
    have ha := hats a (by simp)
    obtain ⟨n, v⟩ := a
    rw [show attrsStr ((n, v) :: rest) = attrStr (n, v) ++ attrsStr rest from rfl]
    rw [scanChars_append]
    rw [scanAttr ha.1 ha.2 hp]
    dsimp only
    rw [ih (fun b hb => hats b (by simp [hb])) (attrPend (n, v)) (attrPend_pendSt _)]
    simp [attrsToksSh, attrsPendF]

theorem attrsToksSh_flat : ∀ (ats : List Attr) (p : SState × Str) (l : List Token),
    attrsToksSh ats p ++ (flushTok (attrsPendF ats p) :: l) =
      flushTok p :: (attrsToks ats ++ l) := by
  intro ats
  induction ats with
  | nil => intro p l; simp [attrsToksSh, attrsPendF, attrsToks]
  | cons a rest ih =>
    intro p l
    obtain ⟨n, v⟩ := a
    cases v with
    | none =>
      simp only [attrsToksSh, attrsPendF, attrsToks, attrToks, attrMid, List.cons_append,
        List.nil_append, List.append_assoc]
      rw [ih (attrPend (n, none)) l]
      simp [attrPend, flushTok]
    | some w =>
      simp only [attrsToksSh, attrsPendF, attrsToks, attrToks, attrMid, List.cons_append,
        List.nil_append, List.append_assoc]
      rw [ih (attrPend (n, some w)) l]
      simp [attrPend, flushTok]

theorem scanOpenTag {n : Str} {ats : List Attr} {sc : Bool}
    (hn : goodName n) (hats : goodAttrs ats) (buf : Str) :
    scanChars (.TEXT, buf) (openTagStr n ats sc) =
      ((.TEXT, []),
        [.CHARACTERS buf, .START_TAG, .NAME n] ++ attrsToks ats ++
          (if sc then [.TAG_IS_SELF_CLOSING] else []) ++ [.END_TAG]) := by
  rw [show openTagStr n ats sc =
      (['<'] ++ (n ++ attrsStr ats)) ++ ((if sc then ['/'] else []) ++ ['>']) by
    simp [openTagStr]]
  rw [scanChars_append (.TEXT, buf) (['<'] ++ (n ++ attrsStr ats))
    ((if sc then ['/'] else []) ++ ['>'])]
  rw [scanChars_append (.TEXT, buf) ['<'] (n ++ attrsStr ats)]
  rw [show scanChars (.TEXT, buf) ['<'] = ((.IN_TAG_START, []), [.CHARACTERS buf, .START_TAG])
    from rfl]
  dsimp only
  rw [scanChars_append (.IN_TAG_START, []) n (attrsStr ats)]
  rw [scanNameFromTagStart hn]
  dsimp only
  rw [scanAttrsStr ats hats (.IN_NAME, n) (Or.inl rfl)]
  dsimp only
  have hp := attrsPendF_pendSt ats (.IN_NAME, n) (Or.inl rfl)
  have hflat := attrsToksSh_flat ats (.IN_NAME, n)
  cases sc with
  | true =>
    rw [show ((if true then ['/'] else []) ++ ['>'] : Str) = ['/'] ++ ['>'] by simp]
    rw [scanChars_append (attrsPendF ats (.IN_NAME, n)) ['/'] ['>']]
    rw [show scanChars (attrsPendF ats (.IN_NAME, n)) ['/'] =
        ((.IN_TAG, []), [flushTok (attrsPendF ats (.IN_NAME, n)), .TAG_IS_SELF_CLOSING]) by
      simp [scanChars, pendStep_slash hp]]
    dsimp only
    rw [show scanChars (.IN_TAG, ([] : Str)) ['>'] = ((.TEXT, []), [.END_TAG]) from rfl]
    refine Prod.ext rfl ?_
    show [Token.CHARACTERS buf, .START_TAG] ++ (([] : List Token) ++
      (attrsToksSh ats (.IN_NAME, n) ++
        ([flushTok (attrsPendF ats (.IN_NAME, n)), .TAG_IS_SELF_CLOSING] ++ [.END_TAG]))) = _
    rw [List.nil_append]
    rw [show ([flushTok (attrsPendF ats (.IN_NAME, n)), .TAG_IS_SELF_CLOSING] ++
        [Token.END_TAG] : List Token) =
      flushTok (attrsPendF ats (.IN_NAME, n)) :: [.TAG_IS_SELF_CLOSING, .END_TAG] from rfl]
    rw [hflat [Token.TAG_IS_SELF_CLOSING, .END_TAG]]
    simp [flushTok]
  | false =>
    rw [show ((if false then ['/'] else []) ++ ['>'] : Str) = ['>'] by simp]
    rw [show scanChars (attrsPendF ats (.IN_NAME, n)) ['>'] =
        ((.TEXT, []), [flushTok (attrsPendF ats (.IN_NAME, n)), .END_TAG]) by
      simp [scanChars, pendStep_gt hp]]
    refine Prod.ext rfl ?_
    show [Token.CHARACTERS buf, .START_TAG] ++ (([] : List Token) ++
      (attrsToksSh ats (.IN_NAME, n) ++
        [flushTok (attrsPendF ats (.IN_NAME, n)), .END_TAG])) = _
    rw [List.nil_append]
    rw [show ([flushTok (attrsPendF ats (.IN_NAME, n)), .END_TAG] : List Token) =
      flushTok (attrsPendF ats (.IN_NAME, n)) :: [.END_TAG] from rfl]
    rw [hflat [Token.END_TAG]]
    simp [flushTok]

theorem scanCloseTag {n : Str} (hn : goodName n) (buf : Str) :
    scanChars (.TEXT, buf) (closeTagStr n) =
      ((.TEXT, []), [.CHARACTERS buf, .START_TAG, .TAG_IS_CLOSING, .NAME n, .END_TAG]) := by
  rw [show closeTagStr n = ['<'] ++ (['/'] ++ (n ++ ['>'])) from rfl]
  rw [scanChars_append, scanChars_append]
  rw [show scanChars (.TEXT, buf) ['<'] = ((.IN_TAG_START, []), [.CHARACTERS buf, .START_TAG])
    from rfl]
  dsimp only
  rw [show scanChars (.IN_TAG_START, ([] : Str)) ['/'] = ((.IN_TAG_START, []), [.TAG_IS_CLOSING])
    from rfl]
  dsimp only
  rw [scanChars_append]
  rw [scanNameFromTagStart hn]
  dsimp only
  rw [show scanChars (.IN_NAME, n) ['>'] = ((.TEXT, []), [.NAME n, .END_TAG]) from rfl]
  simp

theorem writeChildren_nonpretty : ∀ cs : List Node,
    writeChildren [] [] [] cs = serializeForest cs := by
  intro cs
  induction cs with
  | nil => simp [writeChildren, serializeForest]
  | cons n rest ih =>
    cases n with
    | text t => simp [writeChildren, serializeForest, write_to, ih]
    | elem tn sc cl cg ats cs2 => simp [writeChildren, serializeForest, write_to, ih]

theorem write_elem_eq (n : Str) (sc cl : Bool) (ats : List Attr) (cs : List Node) :
    write_to [] [] [] (.elem (some n) sc cl false ats cs) =
      openTagStr n ats sc ++ (serializeForest cs ++ (if cl then closeTagStr n else [])) := by
  cases cl <;> simp [write_to, elemParts, openTagStr, closeTagStr, writeChildren_nonpretty]

/-- Scanning the serialization of a canonical forest from TEXT state:
tokens as described by `nodesToks`, ending in TEXT with the trailing text
pending. -/
theorem scan_canon : ∀ {a p : Bool} {ns : List Node}, Canon a p ns → ∀ buf : Str,
    scanChars (.TEXT, buf) (serializeForest ns) =
      ((.TEXT, trailingT ns buf), nodesToks ns buf) := by
  intro a p ns h
  induction h with
  | nil a p => intro buf; simp [serializeForest, scanChars, trailingT, nodesToks]
  | text a t rest ht hrest ih =>
    intro buf
    rw [show serializeForest (.text t :: rest) = t ++ serializeForest rest by
      simp [serializeForest, write_to]]
    rw [scanChars_append, scanText_acc t buf ht.2]
    dsimp only
    rw [ih (buf ++ t)]
    simp [trailingT, nodesToks]
  | selfc a p n ats rest hn hats hrest ih =>
    intro buf
    rw [show serializeForest (.elem (some n) true false false ats [] :: rest) =
        openTagStr n ats true ++ serializeForest rest by
      simp [serializeForest, write_elem_eq]]
    rw [scanChars_append, scanOpenTag hn hats buf]
    dsimp only
    rw [ih []]
    simp [trailingT, nodesToks]
  | closed a p n ats cs rest hn hats hcs hrest ihcs ihrest =>
    intro buf
    rw [show serializeForest (.elem (some n) false true false ats cs :: rest) =
        openTagStr n ats false ++
          (serializeForest cs ++ (closeTagStr n ++ serializeForest rest)) by
      simp [serializeForest, write_elem_eq]]
    rw [scanChars_append, scanOpenTag hn hats buf]
    dsimp only
    rw [scanChars_append, ihcs []]
    dsimp only
    rw [scanChars_append, scanCloseTag hn (trailingT cs [])]
    dsimp only
    rw [ihrest []]
    simp [trailingT, nodesToks]
  | openE p n ats cs hn hats hcs ih =>
    intro buf
    rw [show serializeForest [Node.elem (some n) false false false ats cs] =
        openTagStr n ats false ++ serializeForest cs by
      simp [serializeForest, write_elem_eq]]
    rw [scanChars_append, scanOpenTag hn hats buf]
    dsimp only
    rw [ih []]
    simp [trailingT, nodesToks]

theorem attachList_append (p : List Element × List Node) (l1 l2 : List Node) :
    attachList p (l1 ++ l2) = attachList (attachList p l1) l2 := by
  induction l1 generalizing p with
  | nil => simp [attachList]
  | cons n ns ih =>
    obtain ⟨S, out⟩ := p
    simp only [List.cons_append, attachList]
    exact ih (attachNode S out n)

theorem attachList_cons_top (e : Element) (S : List Element) (out : List Node) :
    ∀ ns, attachList (e :: S, out) ns = ({e with children := e.children ++ ns} :: S, out) := by
  intro ns
  induction ns generalizing e with
  | nil => rw [attachList, List.append_nil]
  | cons n ns ih =>
    simp only [attachList, attachNode]
    rw [ih]
    simp

theorem attachList_nil_stack (out : List Node) : ∀ ns, attachList ([], out) ns = ([], out ++ ns) := by
  intro ns
  induction ns generalizing out with
  | nil => simp [attachList]
  | cons n ns ih => simp [attachList, attachNode, ih]

theorem runTokens_cons_ok {st st1 : AState} {t : Token} {ts : List Token}
    (h : handleToken st t = .ok st1) : runTokens st (t :: ts) = runTokens st1 ts := by
  simp [runTokens, h]

theorem handleToken_CHARACTERS (S : List Element) (out : List Node) (buf : Str) :
    handleToken ⟨S, none, none, out⟩ (.CHARACTERS buf) =
      .ok ⟨(attachList (S, out) (textOpt buf)).1, none, none,
        (attachList (S, out) (textOpt buf)).2⟩ := by
  cases buf with
  | nil => simp [handleToken, textOpt, attachList]
  | cons c cs =>
    cases S with
    | nil => simp [handleToken, textOpt, attachList, attachNode]
    | cons top rest => simp [handleToken, textOpt, attachList, attachNode]

theorem handleToken_NAME_attr {e : Element} (hn : e.tag_name.isSome = true)
    (S : List Element) (out : List Node) (ca : Option Attr) (n : Str) :
    handleToken ⟨S, some e, ca, out⟩ (.NAME n) =
      .ok ⟨S, some (flushAttribute e ca), some (n, none), out⟩ := by
  cases htn : e.tag_name with
  | none => rw [htn] at hn; simp at hn
  | some t0 => cases ca <;> simp [handleToken, htn, flushAttribute]

theorem handleToken_END_pop {e0 : Element} {ca : Option Attr} (top : Element)
    (rest : List Element) (out : List Node)
    (hcg : (flushAttribute e0 ca).is_closing = true) :
    handleToken ⟨top :: rest, some e0, ca, out⟩ .END_TAG =
      .ok ⟨(attachNode rest out ({top with is_closed := true}).toNode).1, none, none,
        (attachNode rest out ({top with is_closed := true}).toNode).2⟩ := by
  rw [flushAttribute_is_closing] at hcg
  simp [handleToken, hcg]

theorem handleToken_END_selfc {e0 : Element} {ca : Option Attr} (S : List Element)
    (out : List Node) (hcg : (flushAttribute e0 ca).is_closing = false)
    (hsc : (flushAttribute e0 ca).is_self_closing = true) :
    handleToken ⟨S, some e0, ca, out⟩ .END_TAG =
      .ok ⟨(attachNode S out (flushAttribute e0 ca).toNode).1, none, none,
        (attachNode S out (flushAttribute e0 ca).toNode).2⟩ := by
  rw [flushAttribute_is_closing] at hcg
  rw [flushAttribute_is_self_closing] at hsc
  cases S <;> simp [handleToken, hcg, hsc]

theorem handleToken_END_push {e0 : Element} {ca : Option Attr} (S : List Element)
    (out : List Node) (hcg : (flushAttribute e0 ca).is_closing = false)
    (hsc : (flushAttribute e0 ca).is_self_closing = false) :
    handleToken ⟨S, some e0, ca, out⟩ .END_TAG =
      .ok ⟨flushAttribute e0 ca :: S, none, none, out⟩ := by
  rw [flushAttribute_is_closing] at hcg
  rw [flushAttribute_is_self_closing] at hsc
  cases S <;> simp [handleToken, hcg, hsc]

theorem runAttrToks : ∀ (ats : List Attr) (e : Element) (ca : Option Attr)
    (S : List Element) (out : List Node) (ts : List Token), e.tag_name.isSome = true →
    runTokens ⟨S, some e, ca, out⟩ (attrsToks ats ++ ts) =
      runTokens ⟨S, some (List.foldl pushAttrP (e, ca) ats).1,
        (List.foldl pushAttrP (e, ca) ats).2, out⟩ ts := by
  intro ats
  induction ats with
  | nil => intro e ca S out ts h; simp [attrsToks, List.foldl]
  | cons a rest ih =>
    intro e ca S out ts h
    obtain ⟨n, v⟩ := a
    cases v with
    | none =>
      rw [show attrsToks ((n, none) :: rest) ++ ts = .NAME n :: (attrsToks rest ++ ts) by
        simp [attrsToks, attrToks]]
      rw [runTokens_cons_ok (handleToken_NAME_attr h S out ca n)]
      rw [ih (flushAttribute e ca) (some (n, none)) S out ts (by simp [h])]
      rfl
    | some w =>
      rw [show attrsToks ((n, some w) :: rest) ++ ts =
          .NAME n :: (.ATTRIBUTE_VALUE w :: (attrsToks rest ++ ts)) by
        simp [attrsToks, attrToks]]
      rw [runTokens_cons_ok (handleToken_NAME_attr h S out ca n)]
      rw [runTokens_cons_ok (show handleToken ⟨S, some (flushAttribute e ca),
          some (n, none), out⟩ (.ATTRIBUTE_VALUE w) =
        .ok ⟨S, some (flushAttribute e ca), some (n, some w), out⟩ from rfl)]
      rw [ih (flushAttribute e ca) (some (n, some w)) S out ts (by simp [h])]
      rfl

theorem flushAttribute_set_sc (e : Element) (ca : Option Attr) :
    flushAttribute {e with is_self_closing := true} ca =
      {flushAttribute e ca with is_self_closing := true} := by
  cases ca <;> rfl

theorem flush_foldl : ∀ (ats : List Attr) (e : Element) (ca : Option Attr),
    flushAttribute (List.foldl pushAttrP (e, ca) ats).1 (List.foldl pushAttrP (e, ca) ats).2 =
      {flushAttribute e ca with attributes := (flushAttribute e ca).attributes ++ ats} := by
  intro ats
  induction ats with
  | nil =>
    intro e ca
    rw [List.foldl, List.append_nil]
  | cons a rest ih =>
    intro e ca
    rw [show List.foldl pushAttrP (e, ca) (a :: rest) =
      List.foldl pushAttrP (flushAttribute e ca, some a) rest from rfl]
    rw [ih]
    simp [flushAttribute]

theorem foldl_pushAttrP_fields : ∀ (ats : List Attr) (e : Element) (ca : Option Attr),
    (List.foldl pushAttrP (e, ca) ats).1.tag_name = e.tag_name ∧
    (List.foldl pushAttrP (e, ca) ats).1.is_self_closing = e.is_self_closing ∧
    (List.foldl pushAttrP (e, ca) ats).1.is_closed = e.is_closed ∧
    (List.foldl pushAttrP (e, ca) ats).1.is_closing = e.is_closing ∧
    (List.foldl pushAttrP (e, ca) ats).1.children = e.children := by
  intro ats
  induction ats with
  | nil => intro e ca; exact ⟨rfl, rfl, rfl, rfl, rfl⟩
  | cons a rest ih =>
    intro e ca
    rw [show List.foldl pushAttrP (e, ca) (a :: rest) =
      List.foldl pushAttrP (flushAttribute e ca, some a) rest from rfl]
    simpa using ih (flushAttribute e ca) (some a)

/-- Running the common prefix of a canonical tag: pending text attached,
a fresh element named `n` in the scratch slot. -/
theorem runTagPrefix (n : Str) (buf : Str) (S : List Element) (out : List Node)
    (ts : List Token) :
    runTokens ⟨S, none, none, out⟩ (.CHARACTERS buf :: .START_TAG :: .NAME n :: ts) =
      runTokens ⟨(attachList (S, out) (textOpt buf)).1,
        some ⟨some n, false, false, false, [], []⟩, none,
        (attachList (S, out) (textOpt buf)).2⟩ ts := by
  rw [runTokens_cons_ok (handleToken_CHARACTERS S out buf)]
  rw [@runTokens_cons_ok ⟨(attachList (S, out) (textOpt buf)).1, none, none,
      (attachList (S, out) (textOpt buf)).2⟩
    ⟨(attachList (S, out) (textOpt buf)).1, some Element.new, none,
      (attachList (S, out) (textOpt buf)).2⟩ .START_TAG _ rfl]
  rw [@runTokens_cons_ok ⟨(attachList (S, out) (textOpt buf)).1, some Element.new, none,
      (attachList (S, out) (textOpt buf)).2⟩
    ⟨(attachList (S, out) (textOpt buf)).1, some ⟨some n, false, false, false, [], []⟩, none,
      (attachList (S, out) (textOpt buf)).2⟩ (.NAME n) _ rfl]

/-- Running the token block of a canonical self-closing tag attaches the
finished leaf (preceded by any pending text) and restores empty scratch
slots. -/
theorem runTagSelfc (n : Str) (ats : List Attr) (buf : Str) (S : List Element)
    (out : List Node) (ts : List Token) :
    runTokens ⟨S, none, none, out⟩
        (([.CHARACTERS buf, .START_TAG, .NAME n] ++ attrsToks ats ++
          [.TAG_IS_SELF_CLOSING] ++ [.END_TAG]) ++ ts) =
      runTokens ⟨(attachList (S, out)
          (textOpt buf ++ [.elem (some n) true false false ats []])).1, none, none,
        (attachList (S, out)
          (textOpt buf ++ [.elem (some n) true false false ats []])).2⟩ ts := by
  rw [show ([Token.CHARACTERS buf, .START_TAG, .NAME n] ++ attrsToks ats ++
      [.TAG_IS_SELF_CLOSING] ++ [.END_TAG]) ++ ts =
    .CHARACTERS buf :: .START_TAG :: .NAME n ::
      (attrsToks ats ++ (.TAG_IS_SELF_CLOSING :: .END_TAG :: ts)) by simp]
  rw [runTagPrefix]
  rw [runAttrToks ats ⟨some n, false, false, false, [], []⟩ none _ _ _ rfl]
  rw [@runTokens_cons_ok ⟨(attachList (S, out) (textOpt buf)).1,
      some (List.foldl pushAttrP (⟨some n, false, false, false, [], []⟩, none) ats).1,
      (List.foldl pushAttrP (⟨some n, false, false, false, [], []⟩, none) ats).2,
      (attachList (S, out) (textOpt buf)).2⟩
    ⟨(attachList (S, out) (textOpt buf)).1,
      some {(List.foldl pushAttrP (⟨some n, false, false, false, [], []⟩, none) ats).1 with
        is_self_closing := true},
      (List.foldl pushAttrP (⟨some n, false, false, false, [], []⟩, none) ats).2,
      (attachList (S, out) (textOpt buf)).2⟩ .TAG_IS_SELF_CLOSING _ rfl]
  have hfields := foldl_pushAttrP_fields ats ⟨some n, false, false, false, [], []⟩ none
  have hcg : (flushAttribute
      {(List.foldl pushAttrP (⟨some n, false, false, false, [], []⟩, none) ats).1 with
        is_self_closing := true}
      (List.foldl pushAttrP (⟨some n, false, false, false, [], []⟩, none) ats).2).is_closing
      = false := by
    rw [flushAttribute_is_closing]
    simpa using hfields.2.2.2.1
  have hsc : (flushAttribute
      {(List.foldl pushAttrP (⟨some n, false, false, false, [], []⟩, none) ats).1 with
        is_self_closing := true}
      (List.foldl pushAttrP (⟨some n, false, false, false, [], []⟩, none) ats).2).is_self_closing
      = true := by
    rw [flushAttribute_is_self_closing]
  rw [runTokens_cons_ok (handleToken_END_selfc _ _ hcg hsc)]
  have heq : (flushAttribute
      {(List.foldl pushAttrP (⟨some n, false, false, false, [], []⟩, none) ats).1 with
        is_self_closing := true}
      (List.foldl pushAttrP (⟨some n, false, false, false, [], []⟩, none) ats).2).toNode =
      Node.elem (some n) true false false ats [] := by
    rw [flushAttribute_set_sc, flush_foldl]
    simp [Element.toNode, flushAttribute]
  rw [heq]
  rw [attachList_append]
  rfl

/-- Running the token block of a canonical opening (non-self-closing,
to-be-pushed) tag: pending text attached, the named element pushed. -/
theorem runTagPush (n : Str) (ats : List Attr) (buf : Str) (S : List Element)
    (out : List Node) (ts : List Token) :
    runTokens ⟨S, none, none, out⟩
        (([.CHARACTERS buf, .START_TAG, .NAME n] ++ attrsToks ats ++ [.END_TAG]) ++ ts) =
      runTokens ⟨(⟨some n, false, false, false, ats, []⟩ : Element) ::
          (attachList (S, out) (textOpt buf)).1, none, none,
        (attachList (S, out) (textOpt buf)).2⟩ ts := by
  rw [show ([Token.CHARACTERS buf, .START_TAG, .NAME n] ++ attrsToks ats ++ [.END_TAG]) ++ ts =
    .CHARACTERS buf :: .START_TAG :: .NAME n :: (attrsToks ats ++ (.END_TAG :: ts)) by simp]
  rw [runTagPrefix]
  rw [runAttrToks ats ⟨some n, false, false, false, [], []⟩ none _ _ _ rfl]
  have hfields := foldl_pushAttrP_fields ats ⟨some n, false, false, false, [], []⟩ none
  have hcg : (flushAttribute
      (List.foldl pushAttrP (⟨some n, false, false, false, [], []⟩, none) ats).1
      (List.foldl pushAttrP (⟨some n, false, false, false, [], []⟩, none) ats).2).is_closing
      = false := by
    rw [flushAttribute_is_closing]
    simpa using hfields.2.2.2.1
  have hsc : (flushAttribute
      (List.foldl pushAttrP (⟨some n, false, false, false, [], []⟩, none) ats).1
      (List.foldl pushAttrP (⟨some n, false, false, false, [], []⟩, none) ats).2).is_self_closing
      = false := by
    rw [flushAttribute_is_self_closing]
    simpa using hfields.2.1
  rw [runTokens_cons_ok (handleToken_END_push _ _ hcg hsc)]
  have heq : flushAttribute
      (List.foldl pushAttrP (⟨some n, false, false, false, [], []⟩, none) ats).1
      (List.foldl pushAttrP (⟨some n, false, false, false, [], []⟩, none) ats).2 =
      (⟨some n, false, false, false, ats, []⟩ : Element) := by
    rw [flush_foldl]
    simp [flushAttribute]
  rw [heq]

/-- Running a canonical closing tag with a non-empty stack pops and closes
the top element. -/
theorem runCloseToks (n : Str) (top : Element) (S1 : List Element) (out : List Node)
    (ts : List Token) :
    runTokens ⟨top :: S1, none, none, out⟩
        (.START_TAG :: .TAG_IS_CLOSING :: .NAME n :: .END_TAG :: ts) =
      runTokens ⟨(attachNode S1 out ({top with is_closed := true}).toNode).1, none, none,
        (attachNode S1 out ({top with is_closed := true}).toNode).2⟩ ts := by
  rw [@runTokens_cons_ok ⟨top :: S1, none, none, out⟩
    ⟨top :: S1, some Element.new, none, out⟩ .START_TAG _ rfl]
  rw [@runTokens_cons_ok ⟨top :: S1, some Element.new, none, out⟩
    ⟨top :: S1, some ⟨none, false, false, true, [], []⟩, none, out⟩ .TAG_IS_CLOSING _ rfl]
  rw [@runTokens_cons_ok ⟨top :: S1, some ⟨none, false, false, true, [], []⟩, none, out⟩
    ⟨top :: S1, some ⟨some n, false, false, true, [], []⟩, none, out⟩ (.NAME n) _ rfl]
  rw [runTokens_cons_ok (handleToken_END_pop top S1 out (by rw [flushAttribute_is_closing]))]

theorem canon_noopen : ∀ {a p : Bool} {ns : List Node}, Canon a p ns → a = false →
    closedPart ns = ns ∧ openSpine ns = [] := by
  intro a p ns h
  induction h with
  | nil a p => intro _; simp [closedPart, openSpine]
  | text a t rest ht hrest ih =>
    intro ha
    obtain ⟨h1, h2⟩ := ih ha
    simp [closedPart, openSpine, h1, h2]
  | selfc a p n ats rest hn hats hrest ih =>
    intro ha
    obtain ⟨h1, h2⟩ := ih ha
    simp [closedPart, openSpine, h1, h2]
  | closed a p n ats cs rest hn hats hcs hrest ihcs ihrest =>
    intro ha
    obtain ⟨h1, h2⟩ := ihrest ha
    simp [closedPart, openSpine, h1, h2]
  | openE p n ats cs hn hats hcs ih =>
    intro ha
    exact absurd ha (by simp)

/-- Running the scanner's token stream for a canonical forest (with the
final end-of-input flush appended): the closed nodes (and any pending
text) are attached in document order, and the trailing open elements are
left on the stack, innermost first. -/
theorem run_canon : ∀ {a p : Bool} {ns : List Node}, Canon a p ns →
    ∀ (buf : Str) (S : List Element) (out : List Node), (p = false → buf = []) →
    runTokens ⟨S, none, none, out⟩ (nodesToks ns buf ++ [.CHARACTERS (trailingT ns buf)]) =
      .ok ⟨openSpine ns ++ (attachList (S, out) (textOpt buf ++ closedPart ns)).1, none, none,
        (attachList (S, out) (textOpt buf ++ closedPart ns)).2⟩ := by
  intro a p ns h
  induction h with
  | nil a p =>
    intro buf S out hb
    simp only [nodesToks, trailingT, List.nil_append]
    rw [runTokens_cons_ok (handleToken_CHARACTERS S out buf)]
    simp [runTokens, openSpine, closedPart]
  | text a t rest ht hrest ih =>
    intro buf S out hb
    have hbuf : buf = [] := hb rfl
    subst hbuf
    rw [show nodesToks (.text t :: rest) [] = nodesToks rest t by simp [nodesToks]]
    rw [show trailingT (.text t :: rest) [] = trailingT rest t by simp [trailingT]]
    rw [ih t S out (fun hh => absurd hh (by decide))]
    have htne : textOpt t = [.text t] := by
      cases t with
      | nil => exact absurd rfl ht.1
      | cons c cs => rfl
    rw [htne, show textOpt ([] : Str) = ([] : List Node) from rfl]
    simp [openSpine, closedPart]
  | selfc a p n ats rest hn hats hrest ih =>
    intro buf S out hb
    rw [show nodesToks (.elem (some n) true false false ats [] :: rest) buf ++
        [.CHARACTERS (trailingT (.elem (some n) true false false ats [] :: rest) buf)] =
        ([.CHARACTERS buf, .START_TAG, .NAME n] ++ attrsToks ats ++
          [.TAG_IS_SELF_CLOSING] ++ [.END_TAG]) ++
          (nodesToks rest [] ++ [.CHARACTERS (trailingT rest [])]) by
      simp [nodesToks, trailingT]]
    rw [runTagSelfc]
    rw [ih [] _ _ (fun _ => rfl)]
    rw [show textOpt [] ++ closedPart rest = closedPart rest by simp [textOpt]]
    rw [← attachList_append]
    rw [show openSpine (.elem (some n) true false false ats [] :: rest) = openSpine rest by
      simp [openSpine]]
    rw [show closedPart (.elem (some n) true false false ats [] :: rest) =
      .elem (some n) true false false ats [] :: closedPart rest by simp [closedPart]]
    rw [show textOpt buf ++ (.elem (some n) true false false ats [] :: closedPart rest) =
      (textOpt buf ++ [.elem (some n) true false false ats []]) ++ closedPart rest by simp]
  | closed a p n ats cs rest hn hats hcs hrest ihcs ihrest =>
    intro buf S out hb
    obtain ⟨hcp, hsp⟩ := canon_noopen hcs rfl
    rw [show nodesToks (.elem (some n) false true false ats cs :: rest) buf ++
        [.CHARACTERS (trailingT (.elem (some n) false true false ats cs :: rest) buf)] =
        ([.CHARACTERS buf, .START_TAG, .NAME n] ++ attrsToks ats ++ [.END_TAG]) ++
          ((nodesToks cs [] ++ [.CHARACTERS (trailingT cs [])]) ++
            (.START_TAG :: .TAG_IS_CLOSING :: .NAME n :: .END_TAG ::
              (nodesToks rest [] ++ [.CHARACTERS (trailingT rest [])]))) by
      simp [nodesToks, trailingT]]
    rw [runTagPush]
    rw [runTokens_append]
    rw [ihcs [] _ _ (fun _ => rfl)]
    dsimp only
    rw [hsp, hcp]
    rw [show textOpt [] ++ cs = cs by simp [textOpt]]
    rw [attachList_cons_top]
    dsimp only
    simp only [List.nil_append]
    rw [runCloseToks]
    rw [ihrest [] _ _ (fun _ => rfl)]
    rw [show textOpt [] ++ closedPart rest = closedPart rest by simp [textOpt]]
    simp only [Element.toNode]
    rw [show openSpine (.elem (some n) false true false ats cs :: rest) = openSpine rest by
      simp [openSpine]]
    rw [show closedPart (.elem (some n) false true false ats cs :: rest) =
      .elem (some n) false true false ats cs :: closedPart rest by simp [closedPart]]
    rw [show textOpt buf ++ (.elem (some n) false true false ats cs :: closedPart rest) =
      (textOpt buf ++ [.elem (some n) false true false ats cs]) ++ closedPart rest by simp]
    rw [attachList_append, attachList_append]
    rfl
  | openE p n ats cs hn hats hcs ih =>
    intro buf S out hb
    rw [show nodesToks [Node.elem (some n) false false false ats cs] buf ++
        [.CHARACTERS (trailingT [Node.elem (some n) false false false ats cs] buf)] =
        ([.CHARACTERS buf, .START_TAG, .NAME n] ++ attrsToks ats ++ [.END_TAG]) ++
          (nodesToks cs [] ++ [.CHARACTERS (trailingT cs [])]) by
      simp [nodesToks, trailingT]]
    rw [runTagPush]
    rw [ih [] _ _ (fun _ => rfl)]
    rw [show textOpt [] ++ closedPart cs = closedPart cs by simp [textOpt]]
    rw [attachList_cons_top]
    dsimp only
    simp only [List.nil_append]
    rw [show openSpine [Node.elem (some n) false false false ats cs] =
      openSpine cs ++ [⟨some n, false, false, false, ats, closedPart cs⟩] by
      simp [openSpine]]
    rw [show closedPart [Node.elem (some n) false false false ats cs] = [] by
      simp [closedPart]]
    rw [show textOpt buf ++ ([] : List Node) = textOpt buf by simp]
    simp [List.append_assoc]

/-- Draining the open spine reattaches each open element to the one
beneath it, reconstructing the canonical forest exactly. -/
theorem canon_drain : ∀ {a p : Bool} {ns : List Node}, Canon a p ns →
    closedPart ns ++ drainStack (openSpine ns) [] = ns := by
  intro a p ns h
  induction h with
  | nil a p => simp [closedPart, openSpine, drainStack]
  | text a t rest ht hrest ih => simp [closedPart, openSpine, ih]
  | selfc a p n ats rest hn hats hrest ih => simp [closedPart, openSpine, ih]
  | closed a p n ats cs rest hn hats hcs hrest ihcs ihrest =>
    simp [closedPart, openSpine, ihrest]
  | openE p n ats cs hn hats hcs ih =>
    rw [show closedPart [Node.elem (some n) false false false ats cs] = [] by
      simp [closedPart]]
    rw [show openSpine [Node.elem (some n) false false false ats cs] =
      openSpine cs ++ [⟨some n, false, false, false, ats, closedPart cs⟩] by
      simp [openSpine]]
    rw [List.nil_append, drainStack_snoc]
    simp [Element.toNode, ih]

/-- Parsing the serialization of a canonical forest recovers it exactly. -/
theorem parse_canonical {F : List Node} (h : Canon true false F) :
    parse_to_subtrees (serializeForest F) = .ok F := by
  have hscan := scan_canon h []
  have hrun := run_canon h [] [] [] (fun _ => rfl)
  have hstream : parse_to_stream (serializeForest F) =
      (nodesToks F [] ++ [.CHARACTERS (trailingT F [])], none) := by
    simp only [parse_to_stream, hscan]
    rfl
  have hcore : parseCore (serializeForest F) =
      .ok ⟨openSpine F, none, none, closedPart F⟩ := by
    simp only [parseCore, hstream]
    rw [show initAState = (⟨[], none, none, []⟩ : AState) from rfl]
    rw [hrun]
    rw [show textOpt ([] : Str) ++ closedPart F = closedPart F by simp [textOpt]]
    rw [attachList_nil_stack]
    dsimp only
    simp
  simp only [parse_to_subtrees, hcore]
  rw [drainStack_out, canon_drain h]

/-- C1: for every well-formed input string (the serialization of a
canonical forest), parsing with `parse_to_subtrees` and then serializing
each item of the resulting forest in order in non-pretty mode (`write_to`
with empty indent, add_indent and newline; text runs verbatim) reproduces
the input string byte for byte. -/
theorem c1_round_trip (s : Str) (h : WellFormedInput s) :
    ∃ F, parse_to_subtrees s = .ok F ∧ serializeForest F = s := by
  obtain ⟨F, hc, hs⟩ := h
  subst hs
  exact ⟨F, parse_canonical hc, rfl⟩

theorem c1_witness :
    ∃ F, parse_to_subtrees ("<a>x</a>".toList) = .ok F ∧
      serializeForest F = "<a>x</a>".toList := by
  apply c1_round_trip
  refine ⟨[.elem (some ("a".toList)) false true false [] [.text ("x".toList)]], ?_, ?_⟩
  · refine Canon.closed true false _ [] _ [] ⟨by decide, by decide⟩
      (fun a ha => by simp at ha) ?_ (Canon.nil true false)
    exact Canon.text false _ [] ⟨by decide, by decide⟩ (Canon.nil false true)
  · simp [serializeForest, write_to, elemParts, writeChildren, attrsStr]
